import Mathlib

/-!
Shallow embedding of the Shrdlite ARA* search core (`Graph.ts`, final version:
the `aStar` class with `anytimeAStarRepairing`, `improvePath`, `calculatePath`,
and the `aStarSearch` entry point).

Modelling conventions:
* JavaScript `number` is modelled as `Rat` (exact arithmetic).
* A `QueueNode` object is identified by its index (id) into a growing store
  (`List (QNode Node)`); mutation of a field of a shared object is modelled by
  updating the store at that id, so aliasing between the queue, `visitedSet`,
  `inconsistentSet`, parent links and `goalState` is preserved.
* JS string-keyed objects (`visitedSet`, `inconsistentSet`, the per-pass
  `closedSet`) are insertion-ordered association lists: assignment to an
  existing key replaces in place, a new key is appended, and `for-in`
  iteration is list order (JS insertion order for non-numeric keys).
* `collections.PriorityQueue` is a list of ids in insertion order; `dequeue`
  removes the first entry whose current `cost + heuristic` value is minimal
  (the heap's tie order is unspecified; values are read at comparison time,
  matching the comparator, which reads the current fields of the objects).
* `Date.now()` is an abstract clock: the reading at call entry is `t0`, and
  the reading at the k-th check of the driver's while condition is `times k`.
  `improvePath` never reads the clock (faithful to the source, which contains
  no time check inside the pass loop).
* The `while` loops of the driver and of `improvePath`, and the parent walk
  of `calculatePath`, are fuelled; running out of fuel yields `none`
  (modelling a run that has not terminated within the fuel bound).
* An uninitialized TypeScript class field (`new SearchResult<Node>()`) is
  `none` in the corresponding `Option` field; JS `Math.min` with an
  undefined/NaN argument yields NaN, modelled by `none` propagation, and
  comparisons against NaN/undefined are false.
-/

namespace Shrdlite

/-- An edge in a graph.  `tgt` is the source's `to` field (a Lean keyword);
the source's `from` field is unused by the algorithm and omitted: the
algorithm only reads `edge.to` and `edge.cost`. -/
structure Edge (Node : Type) where
  tgt : Node
  cost : Rat
deriving DecidableEq, Repr

/-- Type that reports the result of a search.  The TypeScript class declares
the fields without initializers, so `new SearchResult<Node>()` produces an
object whose `path` and `cost` are `undefined` (`none` here); results built
by `calculatePath` have both fields set (`some`). -/
structure SearchResult (Node : Type) where
  path : Option (List Node)
  cost : Option Rat
deriving DecidableEq, Repr

/-- Type stored in the priority queue (`QueueNode` in the source).  `parent`
is the id of the parent record in the store (`none` = `undefined`). -/
structure QNode (Node : Type) where
  parent : Option Nat
  node : Node
  cost : Rat
  heuristic : Rat
deriving DecidableEq, Repr

instance (Node : Type) [Inhabited Node] : Inhabited (QNode Node) :=
  ⟨⟨none, default, 0, 0⟩⟩

/-- Per-instance state of the `aStar` class: the record store (modelling the
heap of `QueueNode` objects), the two string-keyed maps, the priority queue
(ids, insertion order), the current inflation factor `epsilon`, and the best
known goal record `goalState`. -/
structure AState (Node : Type) where
  store : List (QNode Node)
  visitedSet : List (String × Nat)
  inconsistentSet : List (String × Nat)
  queue : List Nat
  epsilon : Rat
  goalState : Option Nat
deriving DecidableEq, Repr

variable {Node : Type} [Inhabited Node]

/-- Hash-map read: `m[k]`, `none` = `undefined` (first matching key). -/
def lookupMap (m : List (String × Nat)) (k : String) : Option Nat :=
  match m with
  | [] => none
  | kv :: rest => if kv.1 = k then some kv.2 else lookupMap rest k

/-- Hash-map write `m[k] = v`: replace in place if the key exists, else
append (JS objects keep the original insertion position on reassignment). -/
def insertMap (m : List (String × Nat)) (k : String) (v : Nat) : List (String × Nat) :=
  match m with
  | [] => [(k, v)]
  | kv :: rest =>
      if kv.1 = k then (k, v) :: rest else kv :: insertMap rest k v

/-- Read the record with id `i` from the store. -/
def getQ (store : List (QNode Node)) (i : Nat) : QNode Node :=
  store.getD i default

/-- The priority-queue comparison value of record `i`: `cost + heuristic`
(the comparator of `anytimeAStarRepairing` orders by `cost + heuristic`,
reading the current fields of the objects). -/
def fval (store : List (QNode Node)) (i : Nat) : Rat :=
  (getQ store i).cost + (getQ store i).heuristic

/-- Extract-min of the priority queue: removes the first entry whose current
`fval` is minimal and returns it with the remaining entries in order;
`none` iff the queue is empty. -/
def extractMin (store : List (QNode Node)) : List Nat → Option (Nat × List Nat)
  | [] => none
  | i :: rest =>
      match extractMin store rest with
      | none => some (i, [])
      | some (j, rest') =>
          if fval store i ≤ fval store j then some (i, rest) else some (j, i :: rest')

/-- One iteration of the neighbour loop of `improvePath` for the edge `e`
leaving the just-closed record `cur` (`closed` is the per-pass closed set,
which this loop only reads).  Mirrors the source:
`accumCost = edge.cost + current.cost`;
`currHeur = heuristics(targetNode) * epsilon`;
if the target key was visited and `cost > accumCost`, update `parent`,
`cost`, `heuristic` in place, then either re-enqueue it (key not closed) or
put it into `inconsistentSet` (key closed); if the key was never visited,
create a fresh record, enqueue it and register it in `visitedSet`. -/
def processEdge (h : Node → Rat) (toStr : Node → String)
    (closed : List (String × Nat)) (cur : Nat)
    (st : AState Node) (e : Edge Node) : AState Node :=
  let target := e.tgt
  let accumCost := e.cost + (getQ st.store cur).cost
  let currHeur := h target * st.epsilon
  match lookupMap st.visitedSet (toStr target) with
  | some tid =>
      if accumCost < (getQ st.store tid).cost then
        let upd : QNode Node :=
          { parent := some cur, node := (getQ st.store tid).node,
            cost := accumCost, heuristic := currHeur }
        let store' := st.store.set tid upd
        if lookupMap closed (toStr target) = none then
          { st with store := store', queue := st.queue ++ [tid] }
        else
          { st with store := store',
                    inconsistentSet := insertMap st.inconsistentSet (toStr target) tid }
      else st
  | none =>
      let nid := st.store.length
      let newNode : QNode Node :=
        { parent := some cur, node := target, cost := accumCost, heuristic := currHeur }
      { st with store := st.store ++ [newNode],
                queue := st.queue ++ [nid],
                visitedSet := insertMap st.visitedSet (toStr target) nid }

/-- The neighbour loop of `improvePath`: fold `processEdge` over
`graph.outgoingEdges(current.node)` in list order. -/
def expandEdges (outgoing : Node → List (Edge Node)) (h : Node → Rat)
    (toStr : Node → String) (closed : List (String × Nat)) (cur : Nat)
    (st : AState Node) : AState Node :=
  (outgoing ((getQ st.store cur).node)).foldl (processEdge h toStr closed cur) st

/-- The parent walk of `calculatePath`: the node of `i` followed by the nodes
of its ancestors (goal first, start last; the source then reverses).  Fuelled:
`none` models a parent cycle, on which the source would loop forever. -/
def pathNodes (store : List (QNode Node)) : Nat → Nat → Option (List Node)
  | 0, _ => none
  | fuel + 1, i =>
      match (getQ store i).parent with
      | none => some [(getQ store i).node]
      | some p => (pathNodes store fuel p).map (fun l => (getQ store i).node :: l)

/-- `calculatePath(goal)`: cost is the goal record's current `cost`, the path
is the reversed parent walk. -/
def calculatePath (st : AState Node) (g : Nat) : Option (SearchResult Node) :=
  (pathNodes st.store (st.store.length + 1) g).map
    (fun l => { path := some l.reverse, cost := some (getQ st.store g).cost })

/-- `improvePath`, one pass: dequeue the minimum record, close it; on goal,
update `goalState` (strict improvement) and return `calculatePath(goalState)`;
otherwise expand its outgoing edges and continue.  On queue exhaustion,
return the best previously found goal (if any) or `new SearchResult()`
(undefined fields).  Returns the result, the final state, and the list of
keys closed in this pass, in expansion order. -/
def improvePathAux (outgoing : Node → List (Edge Node)) (goalB : Node → Bool)
    (h : Node → Rat) (toStr : Node → String) :
    Nat → AState Node → List (String × Nat) → List String →
    Option (SearchResult Node × AState Node × List String)
  | 0, _, _, _ => none
  | fuel + 1, st, closed, trace =>
      match extractMin st.store st.queue with
      | none =>
          match st.goalState with
          | none => some ({ path := none, cost := none }, st, trace)
          | some g => (calculatePath st g).map (fun r => (r, st, trace))
      | some (cur, rest) =>
          let st1 : AState Node := { st with queue := rest }
          let key := toStr ((getQ st1.store cur).node)
          let closed1 := insertMap closed key cur
          let trace1 := trace ++ [key]
          if goalB ((getQ st1.store cur).node) then
            let st2 : AState Node :=
              match st1.goalState with
              | none => { st1 with goalState := some cur }
              | some g =>
                  if (getQ st1.store cur).cost < (getQ st1.store g).cost then
                    { st1 with goalState := some cur }
                  else st1
            match st2.goalState with
            | none => none
            | some g => (calculatePath st2 g).map (fun r => (r, st2, trace1))
          else
            improvePathAux outgoing goalB h toStr fuel
              (expandEdges outgoing h toStr closed1 cur st1) closed1 trace1

/-- `improvePath` called as the source does: fresh empty closed set and trace. -/
def improvePath (outgoing : Node → List (Edge Node)) (goalB : Node → Bool)
    (h : Node → Rat) (toStr : Node → String) (fuel : Nat) (st : AState Node) :
    Option (SearchResult Node × AState Node × List String) :=
  improvePathAux outgoing goalB h toStr fuel st [] []

/-- JS `Math.min` on two real numbers (an explicit `if` so that the kernel
can evaluate it on closed rationals). -/
def jsMinR (a b : Rat) : Rat :=
  if a ≤ b then a else b

/-- JS `Math.max` on two real numbers. -/
def jsMaxR (a b : Rat) : Rat :=
  if a ≤ b then b else a

/-- JS `Math.min` where the accumulator may be `undefined`/NaN (`none`):
`Math.min(undefined, x)` and `Math.min(NaN, x)` are NaN, which propagates. -/
def jsMin (m : Option Rat) (x : Rat) : Option Rat :=
  match m with
  | none => none
  | some a => some (jsMinR a x)

/-- The candidate values `node.cost + node.heuristic / epsilon` of the open
queue followed by the inconsistent set, in the iteration order of the driver
(queue entries first, then `for key in inconsistentSet`). -/
def boundCandidates (st : AState Node) : List Rat :=
  (st.queue ++ st.inconsistentSet.map (fun kv => kv.2)).map
    (fun i => (getQ st.store i).cost + (getQ st.store i).heuristic / st.epsilon)

/-- `minCost` as the driver computes it: start from `result.cost` and fold
`Math.min` over the open queue and the inconsistent set. -/
def minCostOf (st : AState Node) (rc : Option Rat) : Option Rat :=
  (boundCandidates st).foldl jsMin rc

/-- `currEpsilon` as the driver computes it:
`min(epsilon, result.cost / minCost)` when `minCost > 0`, else `epsilon`
(comparisons against NaN/undefined are false, so the `else` branch is also
taken when `minCost` is NaN). -/
def currEpsOf (st : AState Node) (rc : Option Rat) : Rat :=
  match minCostOf st rc, rc with
  | some m, some c => if 0 < m then jsMinR st.epsilon (c / m) else st.epsilon
  | _, _ => st.epsilon

/-- The driver's termination test:
`(currEpsilon - 0.0001 < 1) || (result.cost == 0)` (JS `undefined == 0` is
false). -/
def stopCond (st : AState Node) (rc : Option Rat) : Prop :=
  currEpsOf st rc - 1 / 10000 < 1 ∨ rc = some 0

instance (st : AState Node) (rc : Option Rat) : Decidable (stopCond st rc) := by
  unfold stopCond
  infer_instance

/-- The ε-step and queue migration of the driver: `epsilon := max(1, ε - 1)`;
every entry of `queueArray` (the old queue followed by the inconsistent ids;
an id occurs once per queue entry, so a duplicated entry is rescaled twice)
has its cached heuristic multiplied by `ε_new / ε_old` and is enqueued into
the fresh queue in iteration order; the inconsistent set is cleared.
(The source's `queueArray.concat(queueArray)` discards its result and is a
no-op.) -/
def rescaleStep (st : AState Node) : AState Node :=
  let oldE := st.epsilon
  let newE := jsMaxR 1 (st.epsilon - 1)
  let ediv := newE / oldE
  let arr := st.queue ++ st.inconsistentSet.map (fun kv => kv.2)
  let store' := arr.foldl
    (fun sto i => sto.set i { getQ sto i with heuristic := (getQ sto i).heuristic * ediv })
    st.store
  { st with store := store', queue := arr, inconsistentSet := [], epsilon := newE }

/-- Observable outcome of `anytimeAStarRepairing`: the returned result, the
final instance state, the `(minCost, currEpsilon)` computed at each driver
check, the history of pass costs (`results` in the source), the keys closed
by each pass, and whether the driver exited through the timeout branch. -/
structure DriverOut (Node : Type) where
  result : SearchResult Node
  finalState : AState Node
  bounds : List (Option Rat × Rat)
  costs : List (Option Rat)
  expanded : List (List String)
  timedOut : Bool
deriving DecidableEq, Repr

/-- The driver's while loop.  `timeoutTime = t0 + timeout` (the source adds
the timeout argument directly to `Date.now()`, i.e. treats it as
milliseconds); `times k` is the `Date.now()` reading at the k-th check of
the loop condition. -/
def driverLoop (outgoing : Node → List (Edge Node)) (goalB : Node → Bool)
    (h : Node → Rat) (toStr : Node → String) (timeoutTime : Rat)
    (times : Nat → Rat) (passFuel : Nat) :
    Nat → Nat → AState Node → SearchResult Node →
    List (Option Rat × Rat) → List (Option Rat) → List (List String) →
    Option (DriverOut Node)
  | 0, _, _, _, _, _, _ => none
  | fuel + 1, k, st, res, bounds, costs, expanded =>
      if times k < timeoutTime then
        let b := (minCostOf st res.cost, currEpsOf st res.cost)
        let bounds1 := bounds ++ [b]
        if stopCond st res.cost then
          some ⟨res, st, bounds1, costs, expanded, false⟩
        else
          let st1 := rescaleStep st
          match improvePath outgoing goalB h toStr passFuel st1 with
          | none => none
          | some (res1, st2, tr) =>
              driverLoop outgoing goalB h toStr timeoutTime times passFuel fuel
                (k + 1) st2 res1 bounds1 (costs ++ [res1.cost]) (expanded ++ [tr])
      else
        some ⟨res, st, bounds, costs, expanded, true⟩

/-- The fresh instance state built by `new aStar(...)` together with the
queue seeding of `anytimeAStarRepairing`: empty maps, `epsilon = 4` (the
constant field initializer), no goal known, and the start record
`{parent: undefined, node: start, cost: 0, heuristic: epsilon * h(start)}`
as the only queue entry. -/
def mkInitState (start : Node) (h : Node → Rat) : AState Node :=
  { store := [{ parent := none, node := start, cost := 0, heuristic := 4 * h start }],
    visitedSet := [], inconsistentSet := [], queue := [0],
    epsilon := 4, goalState := none }

/-- `anytimeAStarRepairing(timeout)`: seed the queue, run a first pass, then
run the driver loop. -/
def anytimeAStarRepairing (outgoing : Node → List (Edge Node))
    (goalB : Node → Bool) (h : Node → Rat) (toStr : Node → String)
    (timeout t0 : Rat) (times : Nat → Rat) (passFuel loopFuel : Nat)
    (start : Node) : Option (DriverOut Node) :=
  let timeoutTime := t0 + timeout
  match improvePath outgoing goalB h toStr passFuel (mkInitState start h) with
  | none => none
  | some (res, st, tr) =>
      driverLoop outgoing goalB h toStr timeoutTime times passFuel loopFuel
        0 st res [] [res.cost] [tr]

/-- The public entry point `aStarSearch`: construct a fresh `aStar` instance
and run `anytimeAStarRepairing`. -/
def aStarSearch (outgoing : Node → List (Edge Node)) (goalB : Node → Bool)
    (h : Node → Rat) (toStr : Node → String) (timeout t0 : Rat)
    (times : Nat → Rat) (passFuel loopFuel : Nat) (start : Node) :
    Option (SearchResult Node) :=
  (anytimeAStarRepairing outgoing goalB h toStr timeout t0 times passFuel
    loopFuel start).map (fun out => out.result)

/-- `aStarSearch` run while arbitrary instance states of earlier searches are
still alive in the process: the entry point constructs a fresh instance
(every field of `aStar` has a per-instance initializer) and never reads any
earlier state, so `prior` is ignored. -/
def aStarSearchAfter (prior : List (AState Node))
    (outgoing : Node → List (Edge Node)) (goalB : Node → Bool)
    (h : Node → Rat) (toStr : Node → String) (timeout t0 : Rat)
    (times : Nat → Rat) (passFuel loopFuel : Nat) (start : Node) :
    Option (SearchResult Node) :=
  aStarSearch outgoing goalB h toStr timeout t0 times passFuel loopFuel start

/-!  Specification-side notions used to state the claims: genuine paths in
the graph given by `outgoingEdges`, heuristic properties, and the shortest
(Dijkstra) goal cost. -/

/-- `PathCost outgoing u v c`: the graph contains a directed walk from `u`
to `v` whose edge costs sum to `c`. -/
inductive PathCost (outgoing : Node → List (Edge Node)) : Node → Node → Rat → Prop
  | refl (n : Node) : PathCost outgoing n n 0
  | step {u v : Node} {c : Rat} {e : Edge Node} :
      PathCost outgoing u v c → e ∈ outgoing v → PathCost outgoing u e.tgt (e.cost + c)

/-- All edge costs are non-negative. -/
def NonnegCosts (outgoing : Node → List (Edge Node)) : Prop :=
  ∀ n, ∀ e ∈ outgoing n, 0 ≤ e.cost

/-- The heuristic never overestimates the cost of any walk to a goal node. -/
def Admissible (outgoing : Node → List (Edge Node)) (goalB : Node → Bool)
    (h : Node → Rat) : Prop :=
  ∀ n m c, goalB m = true → PathCost outgoing n m c → h n ≤ c

/-- Triangle inequality of the heuristic along every edge. -/
def Consistent (outgoing : Node → List (Edge Node)) (h : Node → Rat) : Prop :=
  ∀ n, ∀ e ∈ outgoing n, h n ≤ e.cost + h e.tgt

/-- `c` is the Dijkstra shortest-path cost from `start` to the nearest
goal-satisfying node. -/
def IsOptimalGoalCost (outgoing : Node → List (Edge Node)) (start : Node)
    (goalB : Node → Bool) (c : Rat) : Prop :=
  (∃ n, goalB n = true ∧ PathCost outgoing start n c) ∧
  ∀ n c2, goalB n = true → PathCost outgoing start n c2 → c ≤ c2

/-- Pointwise evolution of the record store: it only grows, and the `cost`
(`g`) of every existing record never increases. -/
def StoreLE (s t : List (QNode Node)) : Prop :=
  s.length ≤ t.length ∧ ∀ i, i < s.length → (getQ t i).cost ≤ (getQ s i).cost

/-- Sum of the costs of the consecutive edges along a node sequence (using,
for each consecutive pair, the first edge of the adjacency list joining it);
`none` if some consecutive pair is not joined by an edge. -/
def pathEdgeSum [DecidableEq Node] (outgoing : Node → List (Edge Node)) :
    List Node → Option Rat
  | [] => some 0
  | [_] => some 0
  | u :: v :: rest =>
      match (outgoing u).find? (fun e => e.tgt == v) with
      | none => none
      | some e => (pathEdgeSum outgoing (v :: rest)).map (fun s => e.cost + s)

/-- Execution invariant of the search state, tying every record to the
graph: record 0 is the start record (`parent = undefined`, the only such
record), parent links point into the store, every record's `(node, cost)`
is realized by a genuine walk from `start`, `goalState` points to a record
whose node satisfies the goal, and the maps and queue hold valid ids whose
stored node has the map key (ids in `visitedSet` and `inconsistentSet` are
never 0: the start record is not registered in `visitedSet`). -/
structure Inv (outgoing : Node → List (Edge Node)) (goalB : Node → Bool)
    (toStr : Node → String) (start : Node) (st : AState Node) : Prop where
  ne : 0 < st.store.length
  root_parent : (getQ st.store 0).parent = none
  root_node : (getQ st.store 0).node = start
  others_parent : ∀ i, i < st.store.length → i ≠ 0 → (getQ st.store i).parent ≠ none
  parent_lt : ∀ i j, i < st.store.length → (getQ st.store i).parent = some j →
    j < st.store.length
  genuine : ∀ i, i < st.store.length →
    PathCost outgoing start ((getQ st.store i).node) ((getQ st.store i).cost)
  goalOk : ∀ g, st.goalState = some g →
    g < st.store.length ∧ goalB ((getQ st.store g).node) = true
  visited_ok : ∀ kv, kv ∈ st.visitedSet →
    kv.2 < st.store.length ∧ 0 < kv.2 ∧ toStr ((getQ st.store kv.2).node) = kv.1
  queue_ok : ∀ i, i ∈ st.queue → i < st.store.length
  incons_ok : ∀ kv, kv ∈ st.inconsistentSet →
    kv.2 < st.store.length ∧ 0 < kv.2 ∧ toStr ((getQ st.store kv.2).node) = kv.1

/-- First-pass heuristic invariant: every record's cached heuristic is the
raw heuristic of its node multiplied by the current `epsilon`. -/
def HeurInv (h : Node → Rat) (st : AState Node) : Prop :=
  ∀ i, i < st.store.length →
    (getQ st.store i).heuristic = h ((getQ st.store i).node) * st.epsilon

/-!  Concrete instances used by the counterexamples and witnesses. -/

/-- Concrete node type for the counterexample graphs. -/
inductive CN
  | S
  | A
  | B
  | G
deriving DecidableEq, Repr, Inhabited, Fintype

/-- Canonical string key of `CN` (the adapter's `toString`, injective). -/
def toStrCN : CN → String
  | CN.S => "S"
  | CN.A => "A"
  | CN.B => "B"
  | CN.G => "G"

/-- Counterexample graph for C1: direct edge `S→G` of cost 20001 and route
`S→A→G` of cost 10000 + 10000 = 20000; the heuristic is exactly the true
remaining distance (admissible and consistent). -/
def g1out : CN → List (Edge CN)
  | CN.S => [⟨CN.G, 20001⟩, ⟨CN.A, 10000⟩]
  | CN.A => [⟨CN.G, 10000⟩]
  | _ => []

/-- The exact remaining-distance heuristic of `g1out`. -/
def h1 : CN → Rat
  | CN.S => 20000
  | CN.A => 10000
  | _ => 0

/-- The C1 counterexample run: ample timeout (10^6), clock frozen at 1. -/
def run1 : Option (DriverOut CN) :=
  anytimeAStarRepairing g1out (fun n => n == CN.G) h1 toStrCN 1000000 0
    (fun _ => 1) 12 6 CN.S

/-- Graph for the C2, C3 and C8 counterexamples: routes `S→A→G` (5 + 20)
and `S→B→A→G` (1 + 1/10 + 20); `B`'s heuristic delays it until after `A`
is closed, so `A` is improved after closing (inconsistent) and after `G`'s
record was created with `A`'s old cost. -/
def g2out : CN → List (Edge CN)
  | CN.S => [⟨CN.A, 5⟩, ⟨CN.B, 1⟩]
  | CN.A => [⟨CN.G, 20⟩]
  | CN.B => [⟨CN.A, 1 / 10⟩]
  | _ => []

/-- Heuristic for `g2out`. -/
def h2 : CN → Rat
  | CN.A => 1 / 10
  | CN.B => 2
  | _ => 0

/-- `g2out` searched with an ample timeout: two passes, final cost 211/10. -/
def run2big : Option (DriverOut CN) :=
  anytimeAStarRepairing g2out (fun n => n == CN.G) h2 toStrCN 1000000 0
    (fun _ => 1) 12 6 CN.S

/-- `g2out` searched with `timeout = 2` and 2 (milliseconds) elapsed at the
first driver check: the driver stops after the first pass. -/
def run2cut : Option (DriverOut CN) :=
  anytimeAStarRepairing g2out (fun n => n == CN.G) h2 toStrCN 2 0
    (fun _ => 2) 12 6 CN.S

/-- `g2out` searched with `timeout = 2000` and the same clock: the driver
continues and finds the optimal path. -/
def run2ms : Option (DriverOut CN) :=
  anytimeAStarRepairing g2out (fun n => n == CN.G) h2 toStrCN 2000 0
    (fun _ => 2) 12 6 CN.S

/-- C4 run: the start has no outgoing edges and nothing satisfies the goal,
so the queue is exhausted without any goal closure. -/
def run4 : Option (DriverOut CN) :=
  anytimeAStarRepairing (fun _ => []) (fun _ => false) (fun _ => 0) toStrCN
    1000000 0 (fun _ => 1) 12 6 CN.S

/-- Graph for the C6 counterexample: `A` is reached from `S` with cost 3 and
improved via `B` (cost 2) while still open, duplicating its queue entry. -/
def g6out : CN → List (Edge CN)
  | CN.S => [⟨CN.A, 3⟩, ⟨CN.B, 1⟩]
  | CN.B => [⟨CN.A, 1⟩]
  | _ => []

/-- C6 run (zero heuristic, unsatisfiable goal). -/
def run6 : Option (DriverOut CN) :=
  anytimeAStarRepairing g6out (fun _ => false) (fun _ => 0) toStrCN 1000000 0
    (fun _ => 1) 12 6 CN.S

/-- Chain graph `S→A→B` (costs 1 and 1) for the C7 counterexample. -/
def g7out : CN → List (Edge CN)
  | CN.S => [⟨CN.A, 1⟩]
  | CN.A => [⟨CN.B, 1⟩]
  | _ => []

/-- C7 run: `timeout = 0` with the clock frozen at the start instant, so the
time budget has already elapsed when the first pass begins. -/
def run7 : Option (DriverOut CN) :=
  anytimeAStarRepairing g7out (fun n => n == CN.B) (fun _ => 0) toStrCN 0 0
    (fun _ => 0) 12 6 CN.S

/-- The computed outcome of `run1` (checked by evaluation below). -/
def run1out : DriverOut CN :=
  ⟨⟨some [CN.S, CN.G], some 20001⟩,
    ⟨[⟨none, CN.S, 0, 80000⟩, ⟨some 0, CN.G, 20001, 0⟩, ⟨some 0, CN.A, 10000, 40000⟩],
      [("G", 1), ("A", 2)], [], [2], 4, some 1⟩,
    [(some 20000, 20001 / 20000)], [some 20001], [["S", "G"]], false⟩

/-- The computed outcome of `run2big` (checked by evaluation below). -/
def run2bigout : DriverOut CN :=
  ⟨⟨some [CN.S, CN.B, CN.A, CN.G], some (211 / 10)⟩,
    ⟨[⟨none, CN.S, 0, 0⟩, ⟨some 2, CN.A, 11 / 10, 3 / 10⟩, ⟨some 0, CN.B, 1, 8⟩,
        ⟨some 1, CN.G, 211 / 10, 0⟩],
      [("A", 1), ("B", 2), ("G", 3)], [], [], 3, some 3⟩,
    [(some (6 / 5), 4), (some (211 / 10), 1)], [some 25, some (211 / 10)],
    [["S", "A", "B", "G"], ["A", "G"]], false⟩

/-- Pass-local well-formedness of `visitedSet`: every entry holds a valid
record id whose stored node has the entry's key. -/
def VisitedWF (toStr : Node → String) (st : AState Node) : Prop :=
  ∀ kv ∈ st.visitedSet, kv.2 < st.store.length ∧
    toStr ((getQ st.store kv.2).node) = kv.1

/-- Pass-local invariant of `inconsistentSet`: every entry holds a valid
record id whose key is in the pass's closed set. -/
def InconsClosed (toStr : Node → String) (closed : List (String × Nat))
    (st : AState Node) : Prop :=
  ∀ kv ∈ st.inconsistentSet, kv.2 < st.store.length ∧
    lookupMap closed kv.1 ≠ none ∧ toStr ((getQ st.store kv.2).node) = kv.1

/-- Soundness property of a returned `SearchResult`: whenever the result
carries a path, that path starts at `start`, ends at a goal-satisfying node
`n`, and the reported cost is the cost of a genuine walk from `start` to
`n` in the graph. -/
def ResOK (outgoing : Node → List (Edge Node)) (goalB : Node → Bool)
    (start : Node) (r : SearchResult Node) : Prop :=
  ∀ p, r.path = some p →
    p.head? = some start ∧
    ∃ n c, p.getLast? = some n ∧ goalB n = true ∧ r.cost = some c ∧
      PathCost outgoing start n c

/-!  Basic lemmas about the store, the maps and the queue. -/

theorem getQ_set_self {store : List (QNode Node)} {tid : Nat} (v : QNode Node)
    (h : tid < store.length) : getQ (store.set tid v) tid = v := by
  simp [getQ, List.getD, List.getElem?_set_self h]

theorem getQ_set_ne {store : List (QNode Node)} {i tid : Nat} (v : QNode Node)
    (h : i ≠ tid) : getQ (store.set tid v) i = getQ store i := by
  simp [getQ, List.getD, List.getElem?_set_ne (Ne.symm h)]

theorem getQ_append_left {store m : List (QNode Node)} {i : Nat}
    (h : i < store.length) : getQ (store ++ m) i = getQ store i := by
  simp [getQ, List.getD, List.getElem?_append_left h]

theorem getQ_append_self {store : List (QNode Node)} (v : QNode Node) :
    getQ (store ++ [v]) store.length = v := by
  simp [getQ, List.getD]

theorem lookupMap_insertMap_self (m : List (String × Nat)) (k : String) (v : Nat) :
    lookupMap (insertMap m k v) k = some v := by
  induction m with
  | nil => simp [insertMap, lookupMap]
  | cons kv rest ih =>
      by_cases hk : kv.1 = k
      · simp [insertMap, hk, lookupMap]
      · simp [insertMap, hk, lookupMap, ih]

theorem lookupMap_insertMap_ne (m : List (String × Nat)) {k k2 : String} (v : Nat)
    (h : k2 ≠ k) : lookupMap (insertMap m k v) k2 = lookupMap m k2 := by
  induction m with
  | nil => simp [insertMap, lookupMap, Ne.symm h]
  | cons kv rest ih =>
      by_cases hk : kv.1 = k
      · have hne : ¬(k = k2) := Ne.symm h
        have hne2 : ¬(kv.1 = k2) := by
          rw [hk]
          exact hne
        simp [insertMap, hk, lookupMap, hne, hne2]
      · have hins : insertMap (kv :: rest) k v = kv :: insertMap rest k v := by
          simp [insertMap, hk]
        by_cases hk2 : kv.1 = k2
        · rw [hins]
          simp [lookupMap, hk2]
        · rw [hins]
          simp [lookupMap, hk2, ih]

theorem mem_insertMap {m : List (String × Nat)} {k : String} {v : Nat}
    {kv : String × Nat} (h : kv ∈ insertMap m k v) : kv = (k, v) ∨ kv ∈ m := by
  induction m with
  | nil => simpa [insertMap] using h
  | cons kv2 rest ih =>
      by_cases hk : kv2.1 = k
      · simp only [insertMap, if_pos hk, List.mem_cons] at h
        rcases h with h | h
        · exact Or.inl h
        · exact Or.inr (List.mem_cons_of_mem _ h)
      · simp only [insertMap, if_neg hk, List.mem_cons] at h
        rcases h with h | h
        · exact Or.inr (h ▸ List.mem_cons_self _ _)
        · rcases ih h with h2 | h2
          · exact Or.inl h2
          · exact Or.inr (List.mem_cons_of_mem _ h2)

theorem lookupMap_mem {m : List (String × Nat)} {k : String} {v : Nat}
    (h : lookupMap m k = some v) : (k, v) ∈ m := by
  induction m with
  | nil => simp [lookupMap] at h
  | cons kv rest ih =>
      by_cases hk : kv.1 = k
      · simp only [lookupMap, if_pos hk] at h
        have hv : kv.2 = v := Option.some.inj h
        have : kv = (k, v) := by
          cases kv
          simp_all
        exact this ▸ List.mem_cons_self _ _
      · simp only [lookupMap, if_neg hk] at h
        exact List.mem_cons_of_mem _ (ih h)

theorem lookupMap_insertMap_ne_none {m : List (String × Nat)} {k2 : String}
    (k : String) (v : Nat) (h : lookupMap m k2 ≠ none) :
    lookupMap (insertMap m k v) k2 ≠ none := by
  by_cases hk : k2 = k
  · subst hk
    simp [lookupMap_insertMap_self]
  · rw [lookupMap_insertMap_ne m v hk]
    exact h

theorem extractMin_eq_none {store : List (QNode Node)} {q : List Nat} :
    extractMin store q = none ↔ q = [] := by
  cases q with
  | nil => simp [extractMin]
  | cons i rest =>
      simp only [extractMin]
      constructor
      · intro h
        cases hq : extractMin store rest with
        | none => simp [hq] at h
        | some p =>
            obtain ⟨j, rest2⟩ := p
            simp only [hq] at h
            by_cases hle : fval store i ≤ fval store j
            · simp [hle] at h
            · simp [hle] at h
      · intro h
        exact absurd h (List.cons_ne_nil i rest)

theorem extractMin_perm {store : List (QNode Node)} :
    ∀ {q : List Nat} {i : Nat} {rest : List Nat},
      extractMin store q = some (i, rest) → q.Perm (i :: rest) := by
  intro q
  induction q with
  | nil => intro i rest h; simp [extractMin] at h
  | cons a q ih =>
      intro i rest h
      simp only [extractMin] at h
      cases hq : extractMin store q with
      | none =>
          simp only [hq] at h
          cases h
          have hq0 : q = [] := extractMin_eq_none.mp hq
          subst hq0
          exact List.Perm.refl _
      | some p =>
          obtain ⟨j, rest2⟩ := p
          simp only [hq] at h
          by_cases hle : fval store a ≤ fval store j
          · rw [if_pos hle] at h
            cases h
            exact List.Perm.refl _
          · rw [if_neg hle] at h
            cases h
            exact List.Perm.trans ((ih hq).cons a) (List.Perm.swap _ a _)

theorem extractMin_min {store : List (QNode Node)} :
    ∀ {q : List Nat} {i : Nat} {rest : List Nat},
      extractMin store q = some (i, rest) →
      ∀ j ∈ q, fval store i ≤ fval store j := by
  intro q
  induction q with
  | nil => intro i rest h; simp [extractMin] at h
  | cons a q ih =>
      intro i rest h j hj
      simp only [extractMin] at h
      cases hq : extractMin store q with
      | none =>
          simp only [hq] at h
          have hq0 : q = [] := extractMin_eq_none.mp hq
          subst hq0
          cases h
          simp only [List.mem_singleton] at hj
          subst hj
          exact le_refl _
      | some p =>
          obtain ⟨b, rest2⟩ := p
          simp only [hq] at h
          by_cases hle : fval store a ≤ fval store b
          · rw [if_pos hle] at h
            cases h
            rcases List.mem_cons.mp hj with hj | hj
            · subst hj; exact le_refl _
            · exact le_trans hle (ih hq j hj)
          · rw [if_neg hle] at h
            cases h
            rcases List.mem_cons.mp hj with hj | hj
            · subst hj; exact le_of_lt (lt_of_not_le hle)
            · exact ih hq j hj

/-!  Path reconstruction lemmas. -/

theorem pathNodes_spec {store : List (QNode Node)}
    (hlt : ∀ i j, i < store.length → (getQ store i).parent = some j → j < store.length) :
    ∀ (fuel i : Nat) (l : List Node), i < store.length →
      pathNodes store fuel i = some l →
      l.head? = some ((getQ store i).node) ∧
      ∃ r, r < store.length ∧ (getQ store r).parent = none ∧
        l.getLast? = some ((getQ store r).node) := by
  intro fuel
  induction fuel with
  | zero => intro i l hi h; simp [pathNodes] at h
  | succ fuel ih =>
      intro i l hi h
      rw [pathNodes] at h
      cases hp : (getQ store i).parent with
      | none =>
          simp only [hp] at h
          cases h
          exact ⟨rfl, i, hi, hp, rfl⟩
      | some p =>
          simp only [hp] at h
          cases hrec : pathNodes store fuel p with
          | none => simp [hrec] at h
          | some l2 =>
              simp only [hrec, Option.map_some'] at h
              cases h
              obtain ⟨hhead, r, hr, hrp, hlast⟩ := ih p l2 (hlt i p hi hp) hrec
              refine ⟨rfl, r, hr, hrp, ?_⟩
              cases l2 with
              | nil => simp at hhead
              | cons b l3 => simpa [List.getLast?_cons_cons] using hlast

theorem calculatePath_spec {st : AState Node} {g : Nat} {r : SearchResult Node}
    (hlt : ∀ i j, i < st.store.length → (getQ st.store i).parent = some j →
      j < st.store.length)
    (hg : g < st.store.length) (h : calculatePath st g = some r) :
    r.cost = some ((getQ st.store g).cost) ∧
    ∃ p, r.path = some p ∧
      (∃ rt, rt < st.store.length ∧ (getQ st.store rt).parent = none ∧
        p.head? = some ((getQ st.store rt).node)) ∧
      p.getLast? = some ((getQ st.store g).node) := by
  unfold calculatePath at h
  cases hpn : pathNodes st.store (st.store.length + 1) g with
  | none => simp [hpn] at h
  | some l =>
      simp only [hpn, Option.map_some'] at h
      cases h
      obtain ⟨hhead, rt, hrt, hrtp, hlast⟩ :=
        pathNodes_spec hlt (st.store.length + 1) g l hg hpn
      refine ⟨rfl, l.reverse, rfl, ⟨rt, hrt, hrtp, ?_⟩, ?_⟩
      · rw [List.head?_reverse]
        exact hlast
      · rw [List.getLast?_reverse]
        exact hhead

/-!  Pointwise store evolution. -/

theorem StoreLE.refl (s : List (QNode Node)) : StoreLE s s :=
  ⟨le_refl _, fun _ _ => le_refl _⟩

theorem StoreLE.trans {s t u : List (QNode Node)} (h1 : StoreLE s t)
    (h2 : StoreLE t u) : StoreLE s u :=
  ⟨le_trans h1.1 h2.1, fun i hi => le_trans (h2.2 i (lt_of_lt_of_le hi h1.1)) (h1.2 i hi)⟩

/-- Case analysis of one neighbour-loop iteration: either the target was
visited with no strictly cheaper path (no change), or it was visited and
improved (in place; re-enqueued when its key is not closed, recorded as
inconsistent when it is), or it was unvisited and a fresh record was
created, enqueued and registered. -/
theorem processEdge_shape (h : Node → Rat) (toStr : Node → String)
    (closed : List (String × Nat)) (cur : Nat) (st : AState Node) (e : Edge Node) :
    (processEdge h toStr closed cur st e = st ∧
      ∃ tid, lookupMap st.visitedSet (toStr e.tgt) = some tid ∧
        ¬(e.cost + (getQ st.store cur).cost < (getQ st.store tid).cost)) ∨
    (∃ tid, lookupMap st.visitedSet (toStr e.tgt) = some tid ∧
      e.cost + (getQ st.store cur).cost < (getQ st.store tid).cost ∧
      ((lookupMap closed (toStr e.tgt) = none ∧
        processEdge h toStr closed cur st e =
          { st with
              store := st.store.set tid
                ⟨some cur, (getQ st.store tid).node,
                  e.cost + (getQ st.store cur).cost, h e.tgt * st.epsilon⟩,
              queue := st.queue ++ [tid] }) ∨
       (lookupMap closed (toStr e.tgt) ≠ none ∧
        processEdge h toStr closed cur st e =
          { st with
              store := st.store.set tid
                ⟨some cur, (getQ st.store tid).node,
                  e.cost + (getQ st.store cur).cost, h e.tgt * st.epsilon⟩,
              inconsistentSet := insertMap st.inconsistentSet (toStr e.tgt) tid }))) ∨
    (lookupMap st.visitedSet (toStr e.tgt) = none ∧
      processEdge h toStr closed cur st e =
        { st with
            store := st.store ++
              [⟨some cur, e.tgt, e.cost + (getQ st.store cur).cost, h e.tgt * st.epsilon⟩],
            queue := st.queue ++ [st.store.length],
            visitedSet := insertMap st.visitedSet (toStr e.tgt) st.store.length }) := by
  cases hlook : lookupMap st.visitedSet (toStr e.tgt) with
  | none =>
      refine Or.inr (Or.inr ⟨rfl, ?_⟩)
      simp only [processEdge, hlook]
  | some tid =>
      by_cases hcost : e.cost + (getQ st.store cur).cost < (getQ st.store tid).cost
      · by_cases hcl : lookupMap closed (toStr e.tgt) = none
        · refine Or.inr (Or.inl ⟨tid, rfl, hcost, Or.inl ⟨hcl, ?_⟩⟩)
          simp only [processEdge, hlook, if_pos hcost, if_pos hcl]
        · refine Or.inr (Or.inl ⟨tid, rfl, hcost, Or.inr ⟨hcl, ?_⟩⟩)
          simp only [processEdge, hlook, if_pos hcost, if_neg hcl]
      · refine Or.inl ⟨?_, tid, rfl, hcost⟩
        simp only [processEdge, hlook, if_neg hcost]

/-- One neighbour-loop iteration preserves the execution invariant, only
shrinks costs, and never changes the `node` field of an existing record. -/
theorem processEdge_inv {outgoing : Node → List (Edge Node)} {goalB : Node → Bool}
    {toStr : Node → String} {start : Node} {st : AState Node}
    (hinj : Function.Injective toStr) (inv : Inv outgoing goalB toStr start st)
    {cur : Nat} (hcur : cur < st.store.length) {e : Edge Node}
    (he : e ∈ outgoing ((getQ st.store cur).node))
    (h : Node → Rat) (closed : List (String × Nat)) :
    Inv outgoing goalB toStr start (processEdge h toStr closed cur st e) ∧
    StoreLE st.store (processEdge h toStr closed cur st e).store ∧
    (∀ i, i < st.store.length →
      (getQ (processEdge h toStr closed cur st e).store i).node =
        (getQ st.store i).node) := by
  rcases processEdge_shape h toStr closed cur st e with
    ⟨heq, _⟩ | ⟨tid, hlook, hcost, hbr⟩ | ⟨hlook, heq⟩
  · rw [heq]
    exact ⟨inv, StoreLE.refl _, fun _ _ => rfl⟩
  · -- update-in-place case
    obtain ⟨htidlt, htidpos, hkey⟩ := inv.visited_ok _ (lookupMap_mem hlook)
    have hnodetid : (getQ st.store tid).node = e.tgt := hinj hkey
    set upd : QNode Node :=
      ⟨some cur, (getQ st.store tid).node,
        e.cost + (getQ st.store cur).cost, h e.tgt * st.epsilon⟩ with hupd
    have hlen : (st.store.set tid upd).length = st.store.length := by simp
    have hat : ∀ i, i ≠ tid → getQ (st.store.set tid upd) i = getQ st.store i :=
      fun i hi => getQ_set_ne upd hi
    have hattid : getQ (st.store.set tid upd) tid = upd := getQ_set_self upd htidlt
    have hnode : ∀ i, (getQ (st.store.set tid upd) i).node = (getQ st.store i).node := by
      intro i
      by_cases hi : i = tid
      · subst hi
        rw [hattid]
      · rw [hat i hi]
    have hparent : ∀ i, i ≠ tid →
        (getQ (st.store.set tid upd) i).parent = (getQ st.store i).parent :=
      fun i hi => by rw [hat i hi]
    have hcostat : ∀ i, (getQ (st.store.set tid upd) i).cost ≤ (getQ st.store i).cost := by
      intro i
      by_cases hi : i = tid
      · subst hi
        rw [hattid]
        exact le_of_lt hcost
      · rw [hat i hi]
    have hinv2 : Inv outgoing goalB toStr start
        { st with store := st.store.set tid upd } ∧
        StoreLE st.store (st.store.set tid upd) ∧ True := by
      refine ⟨?_, ⟨le_of_eq hlen.symm, fun i _ => hcostat i⟩, trivial⟩
      refine ⟨?_, ?_, ?_, ?_, ?_, ?_, ?_, ?_, ?_, ?_⟩
      · simpa [hlen] using inv.ne
      · rw [hparent 0 (Ne.symm (Nat.pos_iff_ne_zero.mp htidpos))]
        exact inv.root_parent
      · rw [hnode 0]
        exact inv.root_node
      · intro i hi hi0
        by_cases hit : i = tid
        · subst hit
          rw [hattid]
          simp [hupd]
        · rw [hparent i hit]
          exact inv.others_parent i (by simpa [hlen] using hi) hi0
      · intro i j hi hp
        by_cases hit : i = tid
        · subst hit
          rw [hattid] at hp
          simp only [hupd] at hp
          cases hp
          simpa [hlen] using hcur
        · rw [hparent i hit] at hp
          simpa [hlen] using inv.parent_lt i j (by simpa [hlen] using hi) hp
      · intro i hi
        by_cases hit : i = tid
        · subst hit
          rw [hattid]
          simp only [hupd, hnodetid]
          exact PathCost.step (inv.genuine cur hcur) he
        · rw [hat i hit]
          exact inv.genuine i (by simpa [hlen] using hi)
      · intro g hg
        obtain ⟨hg1, hg2⟩ := inv.goalOk g hg
        refine ⟨by simpa [hlen] using hg1, ?_⟩
        rw [hnode g]
        exact hg2
      · intro kv hkv
        obtain ⟨h1, h2, h3⟩ := inv.visited_ok kv hkv
        exact ⟨by simpa [hlen] using h1, h2, by rw [hnode kv.2]; exact h3⟩
      · intro i hi
        simpa [hlen] using inv.queue_ok i hi
      · intro kv hkv
        obtain ⟨h1, h2, h3⟩ := inv.incons_ok kv hkv
        exact ⟨by simpa [hlen] using h1, h2, by rw [hnode kv.2]; exact h3⟩
    rcases hbr with ⟨hcl, heq⟩ | ⟨hcl, heq⟩
    · rw [heq]
      obtain ⟨hi2, hle2, -⟩ := hinv2
      refine ⟨?_, hle2, fun i _ => hnode i⟩
      refine ⟨hi2.ne, hi2.root_parent, hi2.root_node, hi2.others_parent, hi2.parent_lt,
        hi2.genuine, hi2.goalOk, hi2.visited_ok, ?_, hi2.incons_ok⟩
      intro i hi
      rcases List.mem_append.mp hi with hi | hi
      · exact hi2.queue_ok i hi
      · simp only [List.mem_singleton] at hi
        subst hi
        simpa [hlen] using htidlt
    · rw [heq]
      obtain ⟨hi2, hle2, -⟩ := hinv2
      refine ⟨?_, hle2, fun i _ => hnode i⟩
      refine ⟨hi2.ne, hi2.root_parent, hi2.root_node, hi2.others_parent, hi2.parent_lt,
        hi2.genuine, hi2.goalOk, hi2.visited_ok, hi2.queue_ok, ?_⟩
      intro kv hkv
      rcases mem_insertMap hkv with hkv | hkv
      · subst hkv
        refine ⟨by simpa [hlen] using htidlt, htidpos, ?_⟩
        rw [hnode tid]
        exact hkey
      · exact hi2.incons_ok kv hkv
  · -- fresh record case
    rw [heq]
    set nw : QNode Node :=
      ⟨some cur, e.tgt, e.cost + (getQ st.store cur).cost, h e.tgt * st.epsilon⟩ with hnw
    have hlen : (st.store ++ [nw]).length = st.store.length + 1 := by simp
    have hat : ∀ i, i < st.store.length → getQ (st.store ++ [nw]) i = getQ st.store i :=
      fun i hi => getQ_append_left hi
    have hatN : getQ (st.store ++ [nw]) st.store.length = nw := getQ_append_self nw
    refine ⟨?_, ⟨by simp, fun i hi => by rw [hat i hi]⟩, fun i hi => by rw [hat i hi]⟩
    refine ⟨?_, ?_, ?_, ?_, ?_, ?_, ?_, ?_, ?_, ?_⟩
    · simp only [hlen]
      exact Nat.lt_succ_of_lt inv.ne |> fun _ => Nat.lt_of_lt_of_le inv.ne (Nat.le_succ _)
    · rw [hat 0 inv.ne]
      exact inv.root_parent
    · rw [hat 0 inv.ne]
      exact inv.root_node
    · intro i hi hi0
      rw [hlen] at hi
      rcases Nat.lt_succ_iff_lt_or_eq.mp hi with hi | hi
      · rw [hat i hi]
        exact inv.others_parent i hi hi0
      · subst hi
        rw [hatN]
        simp [hnw]
    · intro i j hi hp
      rw [hlen] at hi ⊢
      rcases Nat.lt_succ_iff_lt_or_eq.mp hi with hi | hi
      · rw [hat i hi] at hp
        exact Nat.lt_succ_of_lt (inv.parent_lt i j hi hp)
      · subst hi
        rw [hatN] at hp
        simp only [hnw] at hp
        cases hp
        exact Nat.lt_succ_of_lt hcur
    · intro i hi
      rw [hlen] at hi
      rcases Nat.lt_succ_iff_lt_or_eq.mp hi with hi | hi
      · rw [hat i hi]
        exact inv.genuine i hi
      · subst hi
        rw [hatN]
        simp only [hnw]
        exact PathCost.step (inv.genuine cur hcur) he
    · intro g hg
      obtain ⟨hg1, hg2⟩ := inv.goalOk g hg
      rw [hlen]
      refine ⟨Nat.lt_succ_of_lt hg1, ?_⟩
      rw [hat g hg1]
      exact hg2
    · intro kv hkv
      rcases mem_insertMap hkv with hkv | hkv
      · subst hkv
        rw [hlen]
        refine ⟨Nat.lt_succ_self _, inv.ne, ?_⟩
        rw [hatN]
      · obtain ⟨h1, h2, h3⟩ := inv.visited_ok kv hkv
        rw [hlen]
        refine ⟨Nat.lt_succ_of_lt h1, h2, ?_⟩
        rw [hat kv.2 h1]
        exact h3
    · intro i hi
      rw [hlen]
      rcases List.mem_append.mp hi with hi | hi
      · exact Nat.lt_succ_of_lt (inv.queue_ok i hi)
      · simp only [List.mem_singleton] at hi
        subst hi
        exact Nat.lt_succ_self _
    · intro kv hkv
      obtain ⟨h1, h2, h3⟩ := inv.incons_ok kv hkv
      rw [hlen]
      refine ⟨Nat.lt_succ_of_lt h1, h2, ?_⟩
      rw [hat kv.2 h1]
      exact h3

/-- The whole neighbour loop preserves the invariant; the closed record
keeps its node and stays a valid id. -/
theorem foldl_processEdge_inv {outgoing : Node → List (Edge Node)}
    {goalB : Node → Bool} {toStr : Node → String} {start : Node}
    (hinj : Function.Injective toStr) (h : Node → Rat)
    (closed : List (String × Nat)) (cur : Nat) (n0 : Node) :
    ∀ (l : List (Edge Node)) (st : AState Node),
      Inv outgoing goalB toStr start st → cur < st.store.length →
      (getQ st.store cur).node = n0 → (∀ e ∈ l, e ∈ outgoing n0) →
      Inv outgoing goalB toStr start (l.foldl (processEdge h toStr closed cur) st) ∧
      StoreLE st.store (l.foldl (processEdge h toStr closed cur) st).store ∧
      cur < (l.foldl (processEdge h toStr closed cur) st).store.length ∧
      (getQ (l.foldl (processEdge h toStr closed cur) st).store cur).node = n0 := by
  intro l
  induction l with
  | nil =>
      intro st inv hcur hn0 _
      exact ⟨inv, StoreLE.refl _, hcur, hn0⟩
  | cons e l ih =>
      intro st inv hcur hn0 hsub
      have he : e ∈ outgoing ((getQ st.store cur).node) := by
        rw [hn0]
        exact hsub e (List.mem_cons_self _ _)
      obtain ⟨inv1, hle1, hnode1⟩ := processEdge_inv hinj inv hcur he h closed
      have hcur1 : cur < (processEdge h toStr closed cur st e).store.length :=
        lt_of_lt_of_le hcur hle1.1
      have hn01 : (getQ (processEdge h toStr closed cur st e).store cur).node = n0 := by
        rw [hnode1 cur hcur]
        exact hn0
      obtain ⟨inv2, hle2, hcur2, hn02⟩ :=
        ih _ inv1 hcur1 hn01 (fun e2 he2 => hsub e2 (List.mem_cons_of_mem _ he2))
      exact ⟨inv2, StoreLE.trans hle1 hle2, hcur2, hn02⟩

theorem expandEdges_inv {outgoing : Node → List (Edge Node)} {goalB : Node → Bool}
    {toStr : Node → String} {start : Node} {st : AState Node}
    (hinj : Function.Injective toStr) (inv : Inv outgoing goalB toStr start st)
    {cur : Nat} (hcur : cur < st.store.length) (h : Node → Rat)
    (closed : List (String × Nat)) :
    Inv outgoing goalB toStr start (expandEdges outgoing h toStr closed cur st) ∧
    StoreLE st.store (expandEdges outgoing h toStr closed cur st).store := by
  obtain ⟨i1, i2, _, _⟩ :=
    foldl_processEdge_inv hinj h closed cur ((getQ st.store cur).node)
      (outgoing ((getQ st.store cur).node)) st inv hcur rfl (fun _ he => he)
  exact ⟨i1, i2⟩

/-- A result produced by `calculatePath` from a state satisfying the
invariant, applied at the state's `goalState`, is sound. -/
theorem calculatePath_resOk {outgoing : Node → List (Edge Node)}
    {goalB : Node → Bool} {toStr : Node → String} {start : Node}
    {st : AState Node} (inv : Inv outgoing goalB toStr start st) {g : Nat}
    (hgs : st.goalState = some g) {r : SearchResult Node}
    (hcp : calculatePath st g = some r) : ResOK outgoing goalB start r := by
  obtain ⟨hg1, hg2⟩ := inv.goalOk g hgs
  obtain ⟨hcost, p, hp, ⟨rt, hrt, hrtp, hhead⟩, hlast⟩ :=
    calculatePath_spec inv.parent_lt hg1 hcp
  intro p2 hp2
  rw [hp] at hp2
  cases hp2
  have hrt0 : rt = 0 := by
    by_contra hc
    exact inv.others_parent rt hrt hc hrtp
  subst hrt0
  rw [inv.root_node] at hhead
  exact ⟨hhead, (getQ st.store g).node, (getQ st.store g).cost, hlast, hg2, hcost,
    inv.genuine g hg1⟩

/-- A single pass preserves the invariant, only shrinks costs, and returns a
sound result. -/
theorem improvePathAux_inv {outgoing : Node → List (Edge Node)}
    {goalB : Node → Bool} {toStr : Node → String} {start : Node}
    (hinj : Function.Injective toStr) (h : Node → Rat) :
    ∀ (fuel : Nat) (st : AState Node) (closed : List (String × Nat))
      (trace : List String) {res : SearchResult Node} {st2 : AState Node}
      {tr2 : List String},
      Inv outgoing goalB toStr start st →
      improvePathAux outgoing goalB h toStr fuel st closed trace =
        some (res, st2, tr2) →
      Inv outgoing goalB toStr start st2 ∧ StoreLE st.store st2.store ∧
      ResOK outgoing goalB start res := by
  intro fuel
  induction fuel with
  | zero =>
      intro st closed trace res st2 tr2 inv hrun
      simp [improvePathAux] at hrun
  | succ fuel ih =>
      intro st closed trace res st2 tr2 inv hrun
      rw [improvePathAux] at hrun
      cases hem : extractMin st.store st.queue with
      | none =>
          simp only [hem] at hrun
          cases hgs : st.goalState with
          | none =>
              simp only [hgs] at hrun
              cases hrun
              refine ⟨inv, StoreLE.refl _, ?_⟩
              intro p hp
              simp at hp
          | some g =>
              simp only [hgs] at hrun
              cases hcp : calculatePath st g with
              | none => simp [hcp] at hrun
              | some r =>
                  simp only [hcp, Option.map_some'] at hrun
                  cases hrun
                  exact ⟨inv, StoreLE.refl _, calculatePath_resOk inv hgs hcp⟩
      | some p0 =>
          obtain ⟨cur, rest⟩ := p0
          simp only [hem] at hrun
          have hcurq : cur ∈ st.queue :=
            (extractMin_perm hem).mem_iff.mpr (List.mem_cons_self _ _)
          have hcur : cur < st.store.length := inv.queue_ok cur hcurq
          have inv1 : Inv outgoing goalB toStr start { st with queue := rest } :=
            ⟨inv.ne, inv.root_parent, inv.root_node, inv.others_parent, inv.parent_lt,
              inv.genuine, inv.goalOk, inv.visited_ok,
              fun i hi => inv.queue_ok i
                ((extractMin_perm hem).mem_iff.mpr (List.mem_cons_of_mem _ hi)),
              inv.incons_ok⟩
          cases hgoal : goalB ((getQ st.store cur).node) with
          | true =>
              simp only [hgoal, if_true] at hrun
              cases hgs : st.goalState with
              | none =>
                  simp only [hgs] at hrun
                  have inv2 : Inv outgoing goalB toStr start
                      { st with queue := rest, goalState := some cur } :=
                    ⟨inv1.ne, inv1.root_parent, inv1.root_node, inv1.others_parent,
                      inv1.parent_lt, inv1.genuine,
                      fun g2 hg2 => by
                        cases hg2
                        exact ⟨hcur, hgoal⟩,
                      inv1.visited_ok, inv1.queue_ok, inv1.incons_ok⟩
                  cases hcp : calculatePath
                      { st with queue := rest, goalState := some cur } cur with
                  | none => simp [hcp] at hrun
                  | some r =>
                      simp only [hcp, Option.map_some'] at hrun
                      cases hrun
                      exact ⟨inv2, StoreLE.refl _, calculatePath_resOk inv2 rfl hcp⟩
              | some g =>
                  simp only [hgs] at hrun
                  by_cases hlt : (getQ st.store cur).cost < (getQ st.store g).cost
                  · simp only [if_pos hlt] at hrun
                    have inv2 : Inv outgoing goalB toStr start
                        { st with queue := rest, goalState := some cur } :=
                      ⟨inv1.ne, inv1.root_parent, inv1.root_node, inv1.others_parent,
                        inv1.parent_lt, inv1.genuine,
                        fun g2 hg2 => by
                          cases hg2
                          exact ⟨hcur, hgoal⟩,
                        inv1.visited_ok, inv1.queue_ok, inv1.incons_ok⟩
                    cases hcp : calculatePath
                        { st with queue := rest, goalState := some cur } cur with
                    | none => simp [hcp] at hrun
                    | some r =>
                        simp only [hcp, Option.map_some'] at hrun
                        cases hrun
                        exact ⟨inv2, StoreLE.refl _, calculatePath_resOk inv2 rfl hcp⟩
                  · simp only [if_neg hlt] at hrun
                    have inv1g : Inv outgoing goalB toStr start
                        { st with queue := rest, goalState := some g } :=
                      ⟨inv1.ne, inv1.root_parent, inv1.root_node, inv1.others_parent,
                        inv1.parent_lt, inv1.genuine,
                        fun g2 hg2 => by
                          cases hg2
                          exact inv.goalOk g hgs,
                        inv1.visited_ok, inv1.queue_ok, inv1.incons_ok⟩
                    cases hcp : calculatePath
                        { st with queue := rest, goalState := some g } g with
                    | none => simp [hcp] at hrun
                    | some r =>
                        simp only [hcp, Option.map_some'] at hrun
                        cases hrun
                        exact ⟨inv1g, StoreLE.refl _, calculatePath_resOk inv1g rfl hcp⟩
          | false =>
              simp only [hgoal, Bool.false_eq_true, if_false] at hrun
              obtain ⟨inv2, hle2⟩ :=
                expandEdges_inv hinj inv1 (show cur <
                  ({ st with queue := rest } : AState Node).store.length from hcur) h
                  (insertMap closed (toStr ((getQ st.store cur).node)) cur)
              obtain ⟨inv3, hle3, hres⟩ := ih _ _ _ inv2 hrun
              exact ⟨inv3, StoreLE.trans hle2 hle3, hres⟩

/-- The heuristic-rescaling fold of the driver changes only `heuristic`
fields: lengths, costs, parents and nodes are untouched. -/
theorem heurFold_fields (ediv : Rat) :
    ∀ (arr : List Nat) (sto : List (QNode Node)), (∀ i ∈ arr, i < sto.length) →
      ((arr.foldl (fun s i =>
          s.set i { getQ s i with heuristic := (getQ s i).heuristic * ediv }) sto).length
        = sto.length) ∧
      ∀ j, ((getQ (arr.foldl (fun s i =>
          s.set i { getQ s i with heuristic := (getQ s i).heuristic * ediv }) sto) j).cost
          = (getQ sto j).cost ∧
        (getQ (arr.foldl (fun s i =>
          s.set i { getQ s i with heuristic := (getQ s i).heuristic * ediv }) sto) j).parent
          = (getQ sto j).parent ∧
        (getQ (arr.foldl (fun s i =>
          s.set i { getQ s i with heuristic := (getQ s i).heuristic * ediv }) sto) j).node
          = (getQ sto j).node) := by
  intro arr
  induction arr with
  | nil => intro sto _; exact ⟨rfl, fun _ => ⟨rfl, rfl, rfl⟩⟩
  | cons i arr ih =>
      intro sto harr
      have hilt : i < sto.length := harr i (List.mem_cons_self _ _)
      set v : QNode Node :=
        { getQ sto i with heuristic := (getQ sto i).heuristic * ediv } with hv
      have hlen1 : (sto.set i v).length = sto.length := by simp
      have hfields1 : ∀ j, (getQ (sto.set i v) j).cost = (getQ sto j).cost ∧
          (getQ (sto.set i v) j).parent = (getQ sto j).parent ∧
          (getQ (sto.set i v) j).node = (getQ sto j).node := by
        intro j
        by_cases hj : j = i
        · subst hj
          rw [getQ_set_self v hilt]
          exact ⟨rfl, rfl, rfl⟩
        · rw [getQ_set_ne v hj]
          exact ⟨rfl, rfl, rfl⟩
      have harr1 : ∀ i2 ∈ arr, i2 < (sto.set i v).length := by
        intro i2 hi2
        rw [hlen1]
        exact harr i2 (List.mem_cons_of_mem _ hi2)
      obtain ⟨hlen2, hfields2⟩ := ih (sto.set i v) harr1
      refine ⟨by rw [List.foldl_cons, hlen2, hlen1], ?_⟩
      intro j
      obtain ⟨c2, p2, n2⟩ := hfields2 j
      obtain ⟨c1, p1, n1⟩ := hfields1 j
      rw [List.foldl_cons]
      exact ⟨c2.trans c1, p2.trans p1, n2.trans n1⟩

/-- The driver's ε-step and queue migration preserve the invariant without
touching any record's cost. -/
theorem rescaleStep_inv {outgoing : Node → List (Edge Node)} {goalB : Node → Bool}
    {toStr : Node → String} {start : Node} {st : AState Node}
    (inv : Inv outgoing goalB toStr start st) :
    Inv outgoing goalB toStr start (rescaleStep st) ∧
    StoreLE st.store (rescaleStep st).store := by
  have harr : ∀ i ∈ st.queue ++ st.inconsistentSet.map (fun kv => kv.2),
      i < st.store.length := by
    intro i hi
    rcases List.mem_append.mp hi with hi | hi
    · exact inv.queue_ok i hi
    · obtain ⟨kv, hkv, hkv2⟩ := List.mem_map.mp hi
      exact hkv2 ▸ (inv.incons_ok kv hkv).1
  obtain ⟨hlen, hfields⟩ :=
    heurFold_fields ((jsMaxR 1 (st.epsilon - 1)) / st.epsilon)
      (st.queue ++ st.inconsistentSet.map (fun kv => kv.2)) st.store harr
  have kst : (rescaleStep st).store =
      (st.queue ++ st.inconsistentSet.map (fun kv => kv.2)).foldl
        (fun s i => s.set i
          { getQ s i with
            heuristic := (getQ s i).heuristic * ((jsMaxR 1 (st.epsilon - 1)) / st.epsilon) })
        st.store := rfl
  have kq : (rescaleStep st).queue =
      st.queue ++ st.inconsistentSet.map (fun kv => kv.2) := rfl
  have ki : (rescaleStep st).inconsistentSet = [] := rfl
  have kv : (rescaleStep st).visitedSet = st.visitedSet := rfl
  have kg : (rescaleStep st).goalState = st.goalState := rfl
  constructor
  · refine ⟨?_, ?_, ?_, ?_, ?_, ?_, ?_, ?_, ?_, ?_⟩
    · rw [kst, hlen]
      exact inv.ne
    · rw [kst, (hfields 0).2.1]
      exact inv.root_parent
    · rw [kst, (hfields 0).2.2]
      exact inv.root_node
    · intro i hi hi0
      rw [kst] at hi ⊢
      rw [hlen] at hi
      rw [(hfields i).2.1]
      exact inv.others_parent i hi hi0
    · intro i j hi hp
      rw [kst] at hi hp ⊢
      rw [hlen] at hi
      rw [(hfields i).2.1] at hp
      rw [hlen]
      exact inv.parent_lt i j hi hp
    · intro i hi
      rw [kst] at hi ⊢
      rw [hlen] at hi
      rw [(hfields i).1, (hfields i).2.2]
      exact inv.genuine i hi
    · intro g hg
      rw [kg] at hg
      obtain ⟨h1, h2⟩ := inv.goalOk g hg
      rw [kst, hlen, (hfields g).2.2]
      exact ⟨h1, h2⟩
    · intro kv2 hkv2
      rw [kv] at hkv2
      obtain ⟨h1, h2, h3⟩ := inv.visited_ok kv2 hkv2
      rw [kst, hlen, (hfields kv2.2).2.2]
      exact ⟨h1, h2, h3⟩
    · intro i hi
      rw [kq] at hi
      rw [kst, hlen]
      exact harr i hi
    · intro kv2 hkv2
      rw [ki] at hkv2
      simp at hkv2
  · rw [kst]
    exact ⟨le_of_eq hlen.symm, fun i _ => le_of_eq (hfields i).1⟩

/-- The start state of `anytimeAStarRepairing` satisfies the execution
invariant. -/
theorem mkInitState_inv (outgoing : Node → List (Edge Node)) (goalB : Node → Bool)
    (toStr : Node → String) (start : Node) (h : Node → Rat) :
    Inv outgoing goalB toStr start (mkInitState start h) := by
  refine ⟨by simp [mkInitState], rfl, rfl, ?_, ?_, ?_, ?_, ?_, ?_, ?_⟩
  · intro i hi hi0
    simp [mkInitState] at hi
    exact absurd hi hi0
  · intro i j hi hp
    simp [mkInitState] at hi
    subst hi
    simp [mkInitState, getQ, List.getD] at hp
  · intro i hi
    simp [mkInitState] at hi
    subst hi
    exact PathCost.refl start
  · intro g hg
    simp [mkInitState] at hg
  · intro kv hkv
    simp [mkInitState] at hkv
  · intro i hi
    simp [mkInitState] at hi
    subst hi
    simp [mkInitState]
  · intro kv hkv
    simp [mkInitState] at hkv

/-- The driver loop preserves the invariant and the soundness of the
current result. -/
theorem driverLoop_inv {outgoing : Node → List (Edge Node)} {goalB : Node → Bool}
    {toStr : Node → String} {start : Node} (hinj : Function.Injective toStr)
    (h : Node → Rat) (timeoutTime : Rat) (times : Nat → Rat) (passFuel : Nat) :
    ∀ (fuel k : Nat) (st : AState Node) (res : SearchResult Node)
      (bounds : List (Option Rat × Rat)) (costs : List (Option Rat))
      (expanded : List (List String)) {out : DriverOut Node},
      Inv outgoing goalB toStr start st → ResOK outgoing goalB start res →
      driverLoop outgoing goalB h toStr timeoutTime times passFuel fuel k st res
        bounds costs expanded = some out →
      Inv outgoing goalB toStr start out.finalState ∧
      ResOK outgoing goalB start out.result ∧
      StoreLE st.store out.finalState.store := by
  intro fuel
  induction fuel with
  | zero =>
      intro k st res bounds costs expanded out inv hres hrun
      simp [driverLoop] at hrun
  | succ fuel ih =>
      intro k st res bounds costs expanded out inv hres hrun
      rw [driverLoop] at hrun
      by_cases ht : times k < timeoutTime
      · rw [if_pos ht] at hrun
        by_cases hstop : stopCond st res.cost
        · simp only [if_pos hstop] at hrun
          cases hrun
          exact ⟨inv, hres, StoreLE.refl _⟩
        · simp only [if_neg hstop] at hrun
          obtain ⟨invr, hler⟩ := rescaleStep_inv inv
          cases himp : improvePath outgoing goalB h toStr passFuel (rescaleStep st) with
          | none => simp [himp] at hrun
          | some t =>
              obtain ⟨res1, st2, tr⟩ := t
              simp only [himp] at hrun
              obtain ⟨inv2, hlei, hres1⟩ :=
                improvePathAux_inv hinj h passFuel (rescaleStep st) [] [] invr himp
              obtain ⟨o1, o2, o3⟩ := ih _ _ _ _ _ _ inv2 hres1 hrun
              exact ⟨o1, o2, StoreLE.trans hler (StoreLE.trans hlei o3)⟩
      · rw [if_neg ht] at hrun
        cases hrun
        exact ⟨inv, hres, StoreLE.refl _⟩

/-- Whole-search soundness: the final state satisfies the invariant and the
returned result is sound. -/
theorem anytime_inv {outgoing : Node → List (Edge Node)} {goalB : Node → Bool}
    {toStr : Node → String} {start : Node} (hinj : Function.Injective toStr)
    (h : Node → Rat) (timeout t0 : Rat) (times : Nat → Rat)
    (passFuel loopFuel : Nat) {out : DriverOut Node}
    (hrun : anytimeAStarRepairing outgoing goalB h toStr timeout t0 times passFuel
      loopFuel start = some out) :
    Inv outgoing goalB toStr start out.finalState ∧
    ResOK outgoing goalB start out.result ∧
    StoreLE (mkInitState start h).store out.finalState.store := by
  rw [anytimeAStarRepairing] at hrun
  cases himp : improvePath outgoing goalB h toStr passFuel (mkInitState start h) with
  | none => simp [himp] at hrun
  | some t =>
      obtain ⟨res, st, tr⟩ := t
      simp only [himp] at hrun
      obtain ⟨inv1, hle1, hres1⟩ :=
        improvePathAux_inv hinj h passFuel (mkInitState start h) [] []
          (mkInitState_inv outgoing goalB toStr start h) himp
      obtain ⟨o1, o2, o3⟩ := driverLoop_inv hinj h (t0 + timeout) times passFuel
        loopFuel 0 st res [] [res.cost] [tr] inv1 hres1 hrun
      exact ⟨o1, o2, StoreLE.trans hle1 o3⟩

theorem jsMinR_eq_min (a b : Rat) : jsMinR a b = min a b := by
  unfold jsMinR
  by_cases hab : a ≤ b
  · rw [if_pos hab, min_eq_left hab]
  · rw [if_neg hab, min_eq_right (le_of_lt (lt_of_not_le hab))]

theorem jsMaxR_eq_max (a b : Rat) : jsMaxR a b = max a b := by
  unfold jsMaxR
  by_cases hab : a ≤ b
  · rw [if_pos hab, max_eq_right hab]
  · rw [if_neg hab, max_eq_left (le_of_lt (lt_of_not_le hab))]

/-- Folding JS `Math.min` from a real accumulator yields the minimum of the
accumulator and the list. -/
theorem foldl_jsMin_some :
    ∀ (l : List Rat) (c : Rat), ∃ m, l.foldl jsMin (some c) = some m ∧ m ≤ c ∧
      (∀ x ∈ l, m ≤ x) ∧ (m = c ∨ m ∈ l) := by
  intro l
  induction l with
  | nil => intro c; exact ⟨c, rfl, le_refl _, fun x hx => absurd hx (List.not_mem_nil x), Or.inl rfl⟩
  | cons x l ih =>
      intro c
      obtain ⟨m, heq, hmc, hml, hor⟩ := ih (jsMinR c x)
      rw [jsMinR_eq_min] at hmc hor
      refine ⟨m, ?_, le_trans hmc (min_le_left _ _), ?_, ?_⟩
      · simpa [jsMin] using heq
      · intro y hy
        rcases List.mem_cons.mp hy with hy | hy
        · exact hy ▸ le_trans hmc (min_le_right _ _)
        · exact hml y hy
      · rcases hor with hor | hor
        · rcases min_choice c x with hmin | hmin
          · exact Or.inl (hor.trans hmin)
          · exact Or.inr (List.mem_cons.mpr (Or.inl (hor.trans hmin)))
        · exact Or.inr (List.mem_cons.mpr (Or.inr hor))

/-- Folding JS `Math.min` from an undefined/NaN accumulator stays NaN. -/
theorem foldl_jsMin_none : ∀ (l : List Rat), l.foldl jsMin none = none := by
  intro l
  induction l with
  | nil => rfl
  | cons x l ih => simpa [jsMin] using ih

/-- The pass-cost history only grows along the driver loop. -/
theorem driverLoop_costs_mono {outgoing : Node → List (Edge Node)}
    {goalB : Node → Bool} {toStr : Node → String} (h : Node → Rat)
    (timeoutTime : Rat) (times : Nat → Rat) (passFuel : Nat) :
    ∀ (fuel k : Nat) (st : AState Node) (res : SearchResult Node)
      (bounds : List (Option Rat × Rat)) (costs : List (Option Rat))
      (expanded : List (List String)) {out : DriverOut Node},
      driverLoop outgoing goalB h toStr timeoutTime times passFuel fuel k st res
        bounds costs expanded = some out →
      costs.length ≤ out.costs.length := by
  intro fuel
  induction fuel with
  | zero =>
      intro k st res bounds costs expanded out hrun
      simp [driverLoop] at hrun
  | succ fuel ih =>
      intro k st res bounds costs expanded out hrun
      rw [driverLoop] at hrun
      by_cases ht : times k < timeoutTime
      · rw [if_pos ht] at hrun
        by_cases hstop : stopCond st res.cost
        · simp only [if_pos hstop] at hrun
          cases hrun
          exact le_refl _
        · simp only [if_neg hstop] at hrun
          cases himp : improvePath outgoing goalB h toStr passFuel (rescaleStep st) with
          | none => simp [himp] at hrun
          | some t =>
              obtain ⟨res1, st2, tr⟩ := t
              simp only [himp] at hrun
              have := ih _ _ _ _ _ _ hrun
              simp only [List.length_append, List.length_singleton] at this
              exact le_trans (Nat.le_succ _) this
      · rw [if_neg ht] at hrun
        cases hrun
        exact le_refl _

/-!  First-pass heuristic-cache lemmas (claim C10). -/

theorem processEdge_heur {outgoing : Node → List (Edge Node)} {goalB : Node → Bool}
    {toStr : Node → String} {start : Node} {st : AState Node}
    (hinj : Function.Injective toStr) (inv : Inv outgoing goalB toStr start st)
    (h : Node → Rat) (closed : List (String × Nat)) (cur : Nat) (e : Edge Node)
    (hh : HeurInv h st) :
    HeurInv h (processEdge h toStr closed cur st e) ∧
    (processEdge h toStr closed cur st e).epsilon = st.epsilon := by
  rcases processEdge_shape h toStr closed cur st e with
    ⟨heq, _⟩ | ⟨tid, hlook, hcost, hbr⟩ | ⟨hlook, heq⟩
  · rw [heq]
    exact ⟨hh, rfl⟩
  · obtain ⟨htidlt, _, hkey⟩ := inv.visited_ok _ (lookupMap_mem hlook)
    have hnodetid : (getQ st.store tid).node = e.tgt := hinj hkey
    have hcore : ∀ i, i < (st.store.set tid
        ⟨some cur, (getQ st.store tid).node,
          e.cost + (getQ st.store cur).cost, h e.tgt * st.epsilon⟩).length →
        (getQ (st.store.set tid
          ⟨some cur, (getQ st.store tid).node,
            e.cost + (getQ st.store cur).cost, h e.tgt * st.epsilon⟩) i).heuristic =
        h ((getQ (st.store.set tid
          ⟨some cur, (getQ st.store tid).node,
            e.cost + (getQ st.store cur).cost, h e.tgt * st.epsilon⟩) i).node) *
          st.epsilon := by
      intro i hi
      simp only [List.length_set] at hi
      by_cases hit : i = tid
      · subst hit
        rw [getQ_set_self _ htidlt]
        simp [hnodetid]
      · rw [getQ_set_ne _ hit]
        exact hh i hi
    rcases hbr with ⟨hcl, heq⟩ | ⟨hcl, heq⟩
    · rw [heq]
      exact ⟨hcore, rfl⟩
    · rw [heq]
      exact ⟨hcore, rfl⟩
  · rw [heq]
    refine ⟨?_, rfl⟩
    intro i hi
    simp only [List.length_append, List.length_singleton] at hi
    rcases Nat.lt_succ_iff_lt_or_eq.mp hi with hi | hi
    · rw [getQ_append_left hi]
      exact hh i hi
    · subst hi
      rw [getQ_append_self]

theorem foldl_processEdge_heur {outgoing : Node → List (Edge Node)}
    {goalB : Node → Bool} {toStr : Node → String} {start : Node}
    (hinj : Function.Injective toStr) (h : Node → Rat)
    (closed : List (String × Nat)) (cur : Nat) (n0 : Node) :
    ∀ (l : List (Edge Node)) (st : AState Node),
      Inv outgoing goalB toStr start st → cur < st.store.length →
      (getQ st.store cur).node = n0 → (∀ e ∈ l, e ∈ outgoing n0) →
      HeurInv h st →
      HeurInv h (l.foldl (processEdge h toStr closed cur) st) ∧
      (l.foldl (processEdge h toStr closed cur) st).epsilon = st.epsilon := by
  intro l
  induction l with
  | nil => intro st _ _ _ _ hh; exact ⟨hh, rfl⟩
  | cons e l ih =>
      intro st inv hcur hn0 hsub hh
      have he : e ∈ outgoing ((getQ st.store cur).node) := by
        rw [hn0]
        exact hsub e (List.mem_cons_self _ _)
      obtain ⟨inv1, hle1, hnode1⟩ := processEdge_inv hinj inv hcur he h closed
      obtain ⟨hh1, heps1⟩ := processEdge_heur hinj inv h closed cur e hh
      have hcur1 : cur < (processEdge h toStr closed cur st e).store.length :=
        lt_of_lt_of_le hcur hle1.1
      have hn01 : (getQ (processEdge h toStr closed cur st e).store cur).node = n0 := by
        rw [hnode1 cur hcur]
        exact hn0
      obtain ⟨hh2, heps2⟩ :=
        ih _ inv1 hcur1 hn01 (fun e2 he2 => hsub e2 (List.mem_cons_of_mem _ he2)) hh1
      rw [List.foldl_cons]
      exact ⟨hh2, heps2.trans heps1⟩

/-- A single pass keeps every record's cached heuristic equal to
`h(node) * epsilon` and never changes `epsilon`. -/
theorem improvePathAux_heur {outgoing : Node → List (Edge Node)}
    {goalB : Node → Bool} {toStr : Node → String} {start : Node}
    (hinj : Function.Injective toStr) (h : Node → Rat) :
    ∀ (fuel : Nat) (st : AState Node) (closed : List (String × Nat))
      (trace : List String) {res : SearchResult Node} {st2 : AState Node}
      {tr2 : List String},
      Inv outgoing goalB toStr start st → HeurInv h st →
      improvePathAux outgoing goalB h toStr fuel st closed trace =
        some (res, st2, tr2) →
      HeurInv h st2 ∧ st2.epsilon = st.epsilon := by
  intro fuel
  induction fuel with
  | zero =>
      intro st closed trace res st2 tr2 inv hh hrun
      simp [improvePathAux] at hrun
  | succ fuel ih =>
      intro st closed trace res st2 tr2 inv hh hrun
      rw [improvePathAux] at hrun
      cases hem : extractMin st.store st.queue with
      | none =>
          simp only [hem] at hrun
          cases hgs : st.goalState with
          | none =>
              simp only [hgs] at hrun
              cases hrun
              exact ⟨hh, rfl⟩
          | some g =>
              simp only [hgs] at hrun
              cases hcp : calculatePath st g with
              | none => simp [hcp] at hrun
              | some r =>
                  simp only [hcp, Option.map_some'] at hrun
                  cases hrun
                  exact ⟨hh, rfl⟩
      | some p0 =>
          obtain ⟨cur, rest⟩ := p0
          simp only [hem] at hrun
          have hcurq : cur ∈ st.queue :=
            (extractMin_perm hem).mem_iff.mpr (List.mem_cons_self _ _)
          have hcur : cur < st.store.length := inv.queue_ok cur hcurq
          have inv1 : Inv outgoing goalB toStr start { st with queue := rest } :=
            ⟨inv.ne, inv.root_parent, inv.root_node, inv.others_parent, inv.parent_lt,
              inv.genuine, inv.goalOk, inv.visited_ok,
              fun i hi => inv.queue_ok i
                ((extractMin_perm hem).mem_iff.mpr (List.mem_cons_of_mem _ hi)),
              inv.incons_ok⟩
          have hh1 : HeurInv h ({ st with queue := rest } : AState Node) := hh
          cases hgoal : goalB ((getQ st.store cur).node) with
          | true =>
              simp only [hgoal, if_true] at hrun
              cases hgs : st.goalState with
              | none =>
                  simp only [hgs] at hrun
                  cases hcp : calculatePath
                      { st with queue := rest, goalState := some cur } cur with
                  | none => simp [hcp] at hrun
                  | some r =>
                      simp only [hcp, Option.map_some'] at hrun
                      cases hrun
                      exact ⟨hh, rfl⟩
              | some g =>
                  simp only [hgs] at hrun
                  by_cases hlt : (getQ st.store cur).cost < (getQ st.store g).cost
                  · simp only [if_pos hlt] at hrun
                    cases hcp : calculatePath
                        { st with queue := rest, goalState := some cur } cur with
                    | none => simp [hcp] at hrun
                    | some r =>
                        simp only [hcp, Option.map_some'] at hrun
                        cases hrun
                        exact ⟨hh, rfl⟩
                  · simp only [if_neg hlt] at hrun
                    cases hcp : calculatePath
                        { st with queue := rest, goalState := some g } g with
                    | none => simp [hcp] at hrun
                    | some r =>
                        simp only [hcp, Option.map_some'] at hrun
                        cases hrun
                        exact ⟨hh, rfl⟩
          | false =>
              simp only [hgoal, Bool.false_eq_true, if_false] at hrun
              obtain ⟨inv2, hle2⟩ :=
                expandEdges_inv hinj inv1 (show cur <
                  ({ st with queue := rest } : AState Node).store.length from hcur) h
                  (insertMap closed (toStr ((getQ st.store cur).node)) cur)
              obtain ⟨hh2, heps2⟩ :=
                foldl_processEdge_heur hinj h
                  (insertMap closed (toStr ((getQ st.store cur).node)) cur) cur
                  ((getQ st.store cur).node)
                  (outgoing ((getQ st.store cur).node)) { st with queue := rest }
                  inv1 hcur rfl (fun _ he => he) hh1
              obtain ⟨hh3, heps3⟩ := ih _ _ _ inv2 hh2 hrun
              exact ⟨hh3, heps3.trans heps2⟩

/-!  Evaluation of the concrete runs (symbolic execution by `norm_num`). -/

theorem run1_eval : run1 = some run1out := by
  norm_num +decide [run1, run1out, anytimeAStarRepairing, driverLoop, improvePath,
    improvePathAux, extractMin, fval, getQ, mkInitState, processEdge, expandEdges,
    lookupMap, insertMap, calculatePath, pathNodes, minCostOf, boundCandidates,
    currEpsOf, stopCond, jsMin, jsMinR, jsMaxR, rescaleStep, g1out, h1, toStrCN,
    List.getD]

theorem run2big_eval : run2big = some run2bigout := by
  norm_num +decide [run2big, run2bigout, anytimeAStarRepairing, driverLoop,
    improvePath, improvePathAux, extractMin, fval, getQ, mkInitState, processEdge,
    expandEdges, lookupMap, insertMap, calculatePath, pathNodes, minCostOf,
    boundCandidates, currEpsOf, stopCond, jsMin, jsMinR, jsMaxR, rescaleStep, g2out,
    h2, toStrCN, List.getD]

/-- Complete characterization of the walks of the C1 counterexample graph. -/
theorem g1out_paths : ∀ (n m : CN) (c : Rat), PathCost g1out n m c →
    (m = n ∧ c = 0) ∨
    (n = CN.S ∧ m = CN.A ∧ c = 10000) ∨
    (n = CN.S ∧ m = CN.G ∧ (c = 20001 ∨ c = 20000)) ∨
    (n = CN.A ∧ m = CN.G ∧ c = 10000) := by
  intro n m c hp
  induction hp with
  | refl => exact Or.inl ⟨rfl, rfl⟩
  | step hp he ih =>
      rename_i v c2 e
      rcases ih with ⟨hm, hc⟩ | ⟨hn, hm, hc⟩ | ⟨hn, hm, hc⟩ | ⟨hn, hm, hc⟩
      · subst hc
        rw [hm] at he
        cases n with
        | S =>
            rcases (by simpa [g1out] using he :
                e = ({ tgt := CN.G, cost := 20001 } : Edge CN) ∨
                e = ({ tgt := CN.A, cost := 10000 } : Edge CN)) with h | h
            · subst h
              exact Or.inr (Or.inr (Or.inl ⟨rfl, rfl, Or.inl (by norm_num)⟩))
            · subst h
              exact Or.inr (Or.inl ⟨rfl, rfl, by norm_num⟩)
        | A =>
            have h : e = ({ tgt := CN.G, cost := 10000 } : Edge CN) := by
              simpa [g1out] using he
            subst h
            exact Or.inr (Or.inr (Or.inr ⟨rfl, rfl, by norm_num⟩))
        | B => simp [g1out] at he
        | G => simp [g1out] at he
      · subst hn
        subst hc
        rw [hm] at he
        have h : e = ({ tgt := CN.G, cost := 10000 } : Edge CN) := by
          simpa [g1out] using he
        subst h
        exact Or.inr (Or.inr (Or.inl ⟨rfl, rfl, Or.inr (by norm_num)⟩))
      · rw [hm] at he
        simp [g1out] at he
      · rw [hm] at he
        simp [g1out] at he

/-!  Claim C1. -/

/-- C1 (counterexample): on the explicit finite graph `g1out` with
non-negative edge costs and the admissible and consistent heuristic `h1`,
with a timeout so large that the driver is never cut off (`timedOut =
false`), the search entry point returns cost 20001, while the Dijkstra
shortest-path cost from `S` to the nearest goal node is 20000: the driver's
`currEpsilon - 0.0001 < 1` rounding tolerance accepts a suboptimal result,
so the claim as stated is false. -/
theorem c1_counterexample :
    NonnegCosts g1out ∧ Consistent g1out h1 ∧
    Admissible g1out (fun n => n == CN.G) h1 ∧
    run1.map (fun o => (o.result.cost, o.timedOut)) = some (some 20001, false) ∧
    IsOptimalGoalCost g1out CN.S (fun n => n == CN.G) 20000 ∧
    (20001 : Rat) ≠ 20000 := by
  refine ⟨?_, ?_, ?_, ?_, ⟨?_, ?_⟩, by norm_num⟩
  · intro n e he
    cases n with
    | S =>
        rcases (by simpa [g1out] using he :
            e = ({ tgt := CN.G, cost := 20001 } : Edge CN) ∨
            e = ({ tgt := CN.A, cost := 10000 } : Edge CN)) with h | h <;>
          subst h <;> norm_num
    | A =>
        have h : e = ({ tgt := CN.G, cost := 10000 } : Edge CN) := by
          simpa [g1out] using he
        subst h
        norm_num
    | B => simp [g1out] at he
    | G => simp [g1out] at he
  · intro n e he
    cases n with
    | S =>
        rcases (by simpa [g1out] using he :
            e = ({ tgt := CN.G, cost := 20001 } : Edge CN) ∨
            e = ({ tgt := CN.A, cost := 10000 } : Edge CN)) with h | h <;>
          subst h <;> norm_num [h1]
    | A =>
        have h : e = ({ tgt := CN.G, cost := 10000 } : Edge CN) := by
          simpa [g1out] using he
        subst h
        norm_num [h1]
    | B => simp [g1out] at he
    | G => simp [g1out] at he
  · intro n m c hg hp
    have hm : m = CN.G := by simpa using hg
    subst hm
    rcases g1out_paths n CN.G c hp with ⟨h1', h2'⟩ | ⟨hn, hm2, hc⟩ |
      ⟨hn, hm2, hc⟩ | ⟨hn, hm2, hc⟩
    · subst h2'
      rw [← h1']
      norm_num [h1]
    · exact absurd hm2 (by decide)
    · subst hn
      rcases hc with hc | hc <;> subst hc <;> norm_num [h1]
    · subst hn
      subst hc
      norm_num [h1]
  · rw [run1_eval]
    rfl
  · refine ⟨CN.G, rfl, ?_⟩
    have hmemA : ({ tgt := CN.A, cost := 10000 } : Edge CN) ∈ g1out CN.S := by
      simp [g1out]
    have hmemG : ({ tgt := CN.G, cost := 10000 } : Edge CN) ∈ g1out CN.A := by
      simp [g1out]
    have hpc : PathCost g1out CN.S CN.G (10000 + (10000 + 0)) :=
      PathCost.step (PathCost.step (PathCost.refl CN.S) hmemA) hmemG
    have harith : (10000 : Rat) + (10000 + 0) = 20000 := by norm_num
    exact harith ▸ hpc
  · intro m c2 hg hp
    have hm : m = CN.G := by simpa using hg
    subst hm
    rcases g1out_paths CN.S CN.G c2 hp with ⟨h1', h2'⟩ | ⟨hn, hm2, hc⟩ |
      ⟨hn, hm2, hc⟩ | ⟨hn, hm2, hc⟩
    · exact absurd h1' (by decide)
    · exact absurd hm2 (by decide)
    · rcases hc with hc | hc <;> subst hc <;> norm_num
    · exact absurd hn (by decide)

/-- C1 (amended): whenever the entry point returns a result that carries a
path, the reported cost is the cost of a genuine walk in the graph from
`start` to a goal-satisfying node — hence it is at least every lower bound
of the goal-walk costs (in particular at least the Dijkstra shortest-path
cost) — but, by the counterexample, it need not equal the Dijkstra cost. -/
theorem c1_amended (outgoing : Node → List (Edge Node)) (goalB : Node → Bool)
    (h : Node → Rat) (toStr : Node → String) (timeout t0 : Rat)
    (times : Nat → Rat) (passFuel loopFuel : Nat) (start : Node)
    (out : DriverOut Node) (p : List Node)
    (hinj : Function.Injective toStr)
    (hrun : anytimeAStarRepairing outgoing goalB h toStr timeout t0 times
      passFuel loopFuel start = some out)
    (hp : out.result.path = some p) :
    ∃ n c, out.result.cost = some c ∧ goalB n = true ∧
      PathCost outgoing start n c ∧
      ∀ d, (∀ m c2, goalB m = true → PathCost outgoing start m c2 → d ≤ c2) →
        d ≤ c := by
  obtain ⟨-, hres, -⟩ :=
    anytime_inv hinj h timeout t0 times passFuel loopFuel hrun
  obtain ⟨-, n, c, -, hg, hc, hpc⟩ := hres p hp
  exact ⟨n, c, hc, hg, hpc, fun d hd => hd n c hg hpc⟩

theorem c1_amended_witness :
    Function.Injective toStrCN ∧
    run1 = some run1out ∧ run1out.result.path = some [CN.S, CN.G] ∧
    (∃ n c, run1out.result.cost = some c ∧ (n == CN.G) = true ∧
      PathCost g1out CN.S n c ∧
      ∀ d, (∀ m c2, (m == CN.G) = true → PathCost g1out CN.S m c2 → d ≤ c2) →
        d ≤ c) := by
  have hinj : Function.Injective toStrCN := by
    intro a b
    cases a <;> cases b <;> simp [toStrCN]
  exact ⟨hinj, run1_eval, rfl,
    c1_amended g1out (fun n => n == CN.G) h1 toStrCN 1000000 0 (fun _ => 1)
      12 6 CN.S run1out [CN.S, CN.G] hinj run1_eval rfl⟩

/-- A goal already satisfied by the start node is handled as a single-node
path: the first pass dequeues the start record (the only queue entry), the
goal test succeeds at once, and `calculatePath` of the parentless start
record returns the path `[start]` with cost 0; the driver then returns that
result unchanged — at an in-budget check the stop condition fires through
its `result.cost == 0` disjunct, and with the budget already elapsed the
timeout branch returns the same first-pass result. -/
theorem goal_at_start_single (outgoing : Node → List (Edge Node))
    (goalB : Node → Bool) (h : Node → Rat) (toStr : Node → String)
    (timeout t0 : Rat) (times : Nat → Rat) (passFuel loopFuel : Nat)
    (start : Node) (hg : goalB start = true)
    (hpf : 1 ≤ passFuel) (hlf : 1 ≤ loopFuel) :
    aStarSearch outgoing goalB h toStr timeout t0 times passFuel loopFuel
      start = some { path := some [start], cost := some 0 } := by
  cases passFuel with
  | zero => exact absurd hpf (by omega)
  | succ pf =>
  cases loopFuel with
  | zero => exact absurd hlf (by omega)
  | succ lf =>
  have hpass : improvePath outgoing goalB h toStr (pf + 1) (mkInitState start h) =
      some ({ path := some [start], cost := some 0 },
        { store := [{ parent := none, node := start, cost := 0,
                      heuristic := 4 * h start }],
          visitedSet := [], inconsistentSet := [], queue := [],
          epsilon := 4, goalState := some 0 }, [toStr start]) := by
    simp only [improvePath, improvePathAux, mkInitState, extractMin, getQ, List.getD,
      List.get?_cons_zero, Option.getD_some, hg, if_true, calculatePath, pathNodes,
      insertMap, List.nil_append, Option.map, List.reverse, List.reverseAux]
  rw [aStarSearch, anytimeAStarRepairing]
  simp only [hpass]
  rw [driverLoop]
  by_cases ht : times 0 < t0 + timeout
  · rw [if_pos ht]
    dsimp only
    have hstop : stopCond
        ({ store := [{ parent := none, node := start, cost := 0,
                       heuristic := 4 * h start }],
           visitedSet := [], inconsistentSet := [], queue := [],
           epsilon := 4, goalState := some 0 } : AState Node)
        (some 0) := Or.inr rfl
    rw [if_pos hstop]
    rfl
  · rw [if_neg ht]
    rfl

/-!  Claim C8. -/

/-- C8 (counterexample): with `timeout = 2` and 2 elapsed at the first
check, the entry point returns the pass-1 result: path `[S, B, A, G]` with
reported cost 25, while the costs of the consecutive edges along that path
sum to 211/10 = 21.1 (record `A` was improved in place after `G`'s record
had captured `A`'s old cost), so "the sum of the costs of the consecutive
edges along the returned path equals the reported cost" is false. -/
theorem c8_counterexample :
    aStarSearch g2out (fun n => n == CN.G) h2 toStrCN 2 0 (fun _ => 2) 12 6
      CN.S = some ⟨some [CN.S, CN.B, CN.A, CN.G], some 25⟩ ∧
    pathEdgeSum g2out [CN.S, CN.B, CN.A, CN.G] = some (211 / 10) ∧
    ((211 : Rat) / 10 ≠ 25) := by
  refine ⟨?_, ?_, by norm_num⟩
  · norm_num +decide [aStarSearch, anytimeAStarRepairing, driverLoop, improvePath,
      improvePathAux, extractMin, fval, getQ, mkInitState, processEdge, expandEdges,
      lookupMap, insertMap, calculatePath, pathNodes, minCostOf, boundCandidates,
      currEpsOf, stopCond, jsMin, jsMinR, jsMaxR, rescaleStep, g2out, h2, toStrCN,
      List.getD]
  · norm_num +decide [pathEdgeSum, g2out]

/-- C8 (amended): whenever the search returns a non-empty path, its first
element is the start node (reconstruction stops at the unique record with a
null parent: the start record), its last element satisfies the goal
predicate, and the reported cost is the goal record's `g`, which is the
cost of a genuine walk from the start to that goal node — but that walk
need not be the returned node sequence, whose edge-cost sum can differ from
the reported cost (see the counterexample); and for any goal predicate
already satisfied by the start node, the same search (any positive fuels)
returns exactly the single-node path `[start]` with cost 0. -/
theorem c8_amended (outgoing : Node → List (Edge Node)) (goalB : Node → Bool)
    (h : Node → Rat) (toStr : Node → String) (timeout t0 : Rat)
    (times : Nat → Rat) (passFuel loopFuel : Nat) (start : Node)
    (out : DriverOut Node) (p : List Node)
    (hinj : Function.Injective toStr)
    (hrun : anytimeAStarRepairing outgoing goalB h toStr timeout t0 times
      passFuel loopFuel start = some out)
    (hp : out.result.path = some p) (hne : p ≠ []) :
    (p.head? = some start ∧
     ∃ n c, p.getLast? = some n ∧ goalB n = true ∧ out.result.cost = some c ∧
       PathCost outgoing start n c) ∧
    (∀ (goalB2 : Node → Bool) (pf2 lf2 : Nat), goalB2 start = true →
      1 ≤ pf2 → 1 ≤ lf2 →
      aStarSearch outgoing goalB2 h toStr timeout t0 times pf2 lf2 start =
        some { path := some [start], cost := some 0 }) := by
  refine ⟨?_, ?_⟩
  · obtain ⟨-, hres, -⟩ :=
      anytime_inv hinj h timeout t0 times passFuel loopFuel hrun
    exact hres p hp
  · intro goalB2 pf2 lf2 hg2 hpf2 hlf2
    exact goal_at_start_single outgoing goalB2 h toStr timeout t0 times
      pf2 lf2 start hg2 hpf2 hlf2

theorem c8_amended_witness :
    Function.Injective toStrCN ∧
    run2big = some run2bigout ∧
    run2bigout.result.path = some [CN.S, CN.B, CN.A, CN.G] ∧
    ([CN.S, CN.B, CN.A, CN.G] ≠ ([] : List CN)) ∧
    ([CN.S, CN.B, CN.A, CN.G].head? = some CN.S ∧
      ∃ n c, [CN.S, CN.B, CN.A, CN.G].getLast? = some n ∧ (n == CN.G) = true ∧
        run2bigout.result.cost = some c ∧ PathCost g2out CN.S n c) ∧
    ((CN.S == CN.S) = true ∧ 1 ≤ 12 ∧ 1 ≤ 6 ∧
      aStarSearch g2out (fun n => n == CN.S) h2 toStrCN 1000000 0 (fun _ => 1)
        12 6 CN.S = some { path := some [CN.S], cost := some 0 }) := by
  have hinj : Function.Injective toStrCN := by
    intro a b
    cases a <;> cases b <;> simp [toStrCN]
  have hmain :=
    c8_amended g2out (fun n => n == CN.G) h2 toStrCN 1000000 0 (fun _ => 1)
      12 6 CN.S run2bigout [CN.S, CN.B, CN.A, CN.G] hinj run2big_eval rfl
      (by decide)
  exact ⟨hinj, run2big_eval, rfl, by decide, hmain.1,
    by decide, by decide, by decide,
    hmain.2 (fun n => n == CN.S) 12 6 (by decide) (by decide) (by decide)⟩

/-!  Claim C2. -/

/-- C2 (counterexample): on `g2out` after the first pass the result cost is
25 and `minCost` is 6/5, so the claim's "suboptimality bound =
result.cost / minCost" would be 125/6, but the driver computes
`min(epsilon, result.cost / minCost)` = 4 ≠ 125/6. -/
theorem c2_counterexample :
    run2big.map (fun o => o.bounds) =
      some [(some (6 / 5), 4), (some (211 / 10), 1)] ∧
    run2big.map (fun o => o.costs) = some [some 25, some (211 / 10)] ∧
    ((25 : Rat) / (6 / 5) ≠ 4) := by
  refine ⟨?_, ?_, by norm_num⟩
  · rw [run2big_eval]
    rfl
  · rw [run2big_eval]
    rfl

/-- C2 (amended): after each pass the driver computes `minCost` as the
minimum of the current result's cost and, over every record in the open
queue and the inconsistent set, `g + h_cached / ε` (exactly a minimum: a
lower bound attained by the result cost or one of the records); when
`minCost > 0` the bound it computes is `min(ε, result.cost / minCost)`
(not plainly `result.cost / minCost`); and at a check inside the time
budget the driver stops and returns the current result exactly when
`bound - 0.0001 < 1` or the result cost is 0 — otherwise it runs at least
one further pass. -/
theorem c2_amended (outgoing : Node → List (Edge Node)) (goalB : Node → Bool)
    (h : Node → Rat) (toStr : Node → String) (timeoutTime : Rat)
    (times : Nat → Rat) (passFuel : Nat) :
    (∀ (st : AState Node) (c : Rat), ∃ m, minCostOf st (some c) = some m ∧
      m ≤ c ∧ (∀ x ∈ boundCandidates st, m ≤ x) ∧
      (m = c ∨ m ∈ boundCandidates st)) ∧
    (∀ (st : AState Node) (c m : Rat), minCostOf st (some c) = some m →
      0 < m → currEpsOf st (some c) = min st.epsilon (c / m)) ∧
    (∀ (st : AState Node) (rc : Option Rat),
      stopCond st rc ↔ (currEpsOf st rc - 1 / 10000 < 1 ∨ rc = some 0)) ∧
    (∀ (fuel k : Nat) (st : AState Node) (res : SearchResult Node)
        (bounds : List (Option Rat × Rat)) (costs : List (Option Rat))
        (expanded : List (List String)),
      times k < timeoutTime → stopCond st res.cost →
      driverLoop outgoing goalB h toStr timeoutTime times passFuel (fuel + 1) k
          st res bounds costs expanded =
        some ⟨res, st, bounds ++ [(minCostOf st res.cost, currEpsOf st res.cost)],
          costs, expanded, false⟩) ∧
    (∀ (fuel k : Nat) (st : AState Node) (res : SearchResult Node)
        (bounds : List (Option Rat × Rat)) (costs : List (Option Rat))
        (expanded : List (List String)) (out : DriverOut Node),
      times k < timeoutTime → ¬stopCond st res.cost →
      driverLoop outgoing goalB h toStr timeoutTime times passFuel (fuel + 1) k
          st res bounds costs expanded = some out →
      costs.length + 1 ≤ out.costs.length) := by
  refine ⟨?_, ?_, fun _ _ => Iff.rfl, ?_, ?_⟩
  · intro st c
    exact foldl_jsMin_some (boundCandidates st) c
  · intro st c m hm hpos
    unfold currEpsOf
    rw [hm]
    show (if 0 < m then jsMinR st.epsilon (c / m) else st.epsilon) = _
    rw [if_pos hpos]
    exact jsMinR_eq_min _ _
  · intro fuel k st res bounds costs expanded ht hstop
    rw [driverLoop, if_pos ht]
    simp only [if_pos hstop]
  · intro fuel k st res bounds costs expanded out ht hstop hrun
    rw [driverLoop, if_pos ht] at hrun
    simp only [if_neg hstop] at hrun
    cases himp : improvePath outgoing goalB h toStr passFuel (rescaleStep st) with
    | none => simp [himp] at hrun
    | some t =>
        obtain ⟨res1, st2, tr⟩ := t
        simp only [himp] at hrun
        have := driverLoop_costs_mono h timeoutTime times passFuel fuel (k + 1)
          st2 res1 _ _ _ hrun
        simpa using this

/-!  Claim C3. -/

/-- C3 (code bug): the entry point's doc comment says `timeout` is in
seconds, but the driver computes `timeoutTime = Date.now() + timeout`, i.e.
treats it as milliseconds.  On `g2out` with 2 ms elapsed at the first
check, `timeout = 2` (two seconds per the documentation) already stops the
driver after the first pass (cost 25), whereas `timeout = 2000`
(milliseconds) lets it continue to the optimal cost 211/10 — the behaviour
the documented seconds semantics would require of `timeout = 2`. -/
theorem c3_timeout_units :
    aStarSearch g2out (fun n => n == CN.G) h2 toStrCN 2 0 (fun _ => 2) 12 6
      CN.S = some ⟨some [CN.S, CN.B, CN.A, CN.G], some 25⟩ ∧
    aStarSearch g2out (fun n => n == CN.G) h2 toStrCN 2000 0 (fun _ => 2) 12 6
      CN.S = some ⟨some [CN.S, CN.B, CN.A, CN.G], some (211 / 10)⟩ ∧
    ((25 : Rat) ≠ 211 / 10) := by
  refine ⟨?_, ?_, by norm_num⟩
  · norm_num +decide [aStarSearch, anytimeAStarRepairing, driverLoop, improvePath,
      improvePathAux, extractMin, fval, getQ, mkInitState, processEdge, expandEdges,
      lookupMap, insertMap, calculatePath, pathNodes, minCostOf, boundCandidates,
      currEpsOf, stopCond, jsMin, jsMinR, jsMaxR, rescaleStep, g2out, h2, toStrCN,
      List.getD]
  · norm_num +decide [aStarSearch, anytimeAStarRepairing, driverLoop, improvePath,
      improvePathAux, extractMin, fval, getQ, mkInitState, processEdge, expandEdges,
      lookupMap, insertMap, calculatePath, pathNodes, minCostOf, boundCandidates,
      currEpsOf, stopCond, jsMin, jsMinR, jsMaxR, rescaleStep, g2out, h2, toStrCN,
      List.getD]

/-!  Claim C4. -/

/-- C4 (code bug): when the queue is exhausted and no goal was ever closed,
the source returns `new SearchResult<Node>()`, whose `path` and `cost`
fields are declared but never initialized — the returned object has
`path = undefined` and `cost = undefined` (`none` here), not the empty
path with cost 0 that the claim (and §3/§7 of the spec) promise. -/
theorem c4_uninitialized_result :
    aStarSearch (fun _ => ([] : List (Edge CN))) (fun _ => false) (fun _ => 0)
      toStrCN 1000000 0 (fun _ => 1) 12 6 CN.S =
      some ⟨none, none⟩ ∧
    (⟨none, none⟩ : SearchResult CN) ≠ ⟨some [], some 0⟩ := by
  refine ⟨?_, by simp⟩
  norm_num +decide [aStarSearch, anytimeAStarRepairing, driverLoop, improvePath,
    improvePathAux, extractMin, fval, getQ, mkInitState, processEdge, expandEdges,
    lookupMap, insertMap, calculatePath, pathNodes, minCostOf, boundCandidates,
    currEpsOf, stopCond, jsMin, jsMinR, jsMaxR, rescaleStep, toStrCN, List.getD]

/-!  Claim C5. -/

/-- C5 (confirmed): a record is rewritten only by a strict improvement —
when the accumulated cost is not strictly below the stored `g` the state is
unchanged, and a strict improvement of a record whose key is in the current
pass's closed set updates it in place, records it in the inconsistent set
and leaves the active queue unchanged; consequently `g` is non-increasing:
along any single pass and along the whole search call the store only grows
and no record's `g` ever increases. -/
theorem c5_g_monotone :
    (∀ (h : Node → Rat) (toStr : Node → String) (closed : List (String × Nat))
        (cur : Nat) (st : AState Node) (e : Edge Node) (tid : Nat),
      lookupMap st.visitedSet (toStr e.tgt) = some tid →
      ¬(e.cost + (getQ st.store cur).cost < (getQ st.store tid).cost) →
      processEdge h toStr closed cur st e = st) ∧
    (∀ (h : Node → Rat) (toStr : Node → String) (closed : List (String × Nat))
        (cur : Nat) (st : AState Node) (e : Edge Node) (tid : Nat),
      lookupMap st.visitedSet (toStr e.tgt) = some tid →
      e.cost + (getQ st.store cur).cost < (getQ st.store tid).cost →
      lookupMap closed (toStr e.tgt) ≠ none →
      processEdge h toStr closed cur st e =
        { st with
            store := st.store.set tid
              ⟨some cur, (getQ st.store tid).node,
                e.cost + (getQ st.store cur).cost, h e.tgt * st.epsilon⟩,
            inconsistentSet := insertMap st.inconsistentSet (toStr e.tgt) tid }) ∧
    (∀ (outgoing : Node → List (Edge Node)) (goalB : Node → Bool)
        (h : Node → Rat) (toStr : Node → String) (start : Node),
      Function.Injective toStr →
      ∀ (fuel : Nat) (st : AState Node) (closed : List (String × Nat))
        (trace : List String) (res : SearchResult Node) (st2 : AState Node)
        (tr2 : List String),
        Inv outgoing goalB toStr start st →
        improvePathAux outgoing goalB h toStr fuel st closed trace =
          some (res, st2, tr2) →
        StoreLE st.store st2.store) ∧
    (∀ (outgoing : Node → List (Edge Node)) (goalB : Node → Bool)
        (h : Node → Rat) (toStr : Node → String) (timeout t0 : Rat)
        (times : Nat → Rat) (passFuel loopFuel : Nat) (start : Node)
        (out : DriverOut Node),
      Function.Injective toStr →
      anytimeAStarRepairing outgoing goalB h toStr timeout t0 times passFuel
        loopFuel start = some out →
      StoreLE (mkInitState start h).store out.finalState.store) := by
  refine ⟨?_, ?_, ?_, ?_⟩
  · intro h toStr closed cur st e tid hlook hnot
    rcases processEdge_shape h toStr closed cur st e with
      ⟨heq, _⟩ | ⟨tid2, hlook2, hcost2, _⟩ | ⟨hlook2, _⟩
    · exact heq
    · have h12 : (some tid : Option Nat) = some tid2 := hlook.symm.trans hlook2
      cases h12
      exact absurd hcost2 hnot
    · exact absurd (hlook.symm.trans hlook2) (by simp)
  · intro h toStr closed cur st e tid hlook himp hcl
    rcases processEdge_shape h toStr closed cur st e with
      ⟨_, tid2, hlook2, hcost2⟩ | ⟨tid2, hlook2, hcost2, hbr⟩ | ⟨hlook2, _⟩
    · have h12 : (some tid : Option Nat) = some tid2 := hlook.symm.trans hlook2
      cases h12
      exact absurd himp hcost2
    · have h12 : (some tid : Option Nat) = some tid2 := hlook.symm.trans hlook2
      cases h12
      rcases hbr with ⟨hcl2, heq⟩ | ⟨hcl2, heq⟩
      · exact absurd hcl2 hcl
      · exact heq
    · exact absurd (hlook.symm.trans hlook2) (by simp)
  · intro outgoing goalB h toStr start hinj fuel st closed trace res st2 tr2 inv hrun
    exact (improvePathAux_inv hinj h fuel st closed trace inv hrun).2.1
  · intro outgoing goalB h toStr timeout t0 times passFuel loopFuel start out hinj hrun
    exact (anytime_inv hinj h timeout t0 times passFuel loopFuel hrun).2.2

/-!  Claim C6. -/

/-- C6 (counterexample): on `g6out` (zero heuristic) the first pass of the
search dequeues and closes the key `"A"` twice — improving the still-open
record `A` re-enqueues it, so the queue holds two entries for the same
record, both of which are expanded — refuting "each node key is expanded at
most once per pass". -/
theorem c6_counterexample :
    run6.map (fun o => o.expanded.head?) = some (some ["S", "B", "A", "A"]) ∧
    ["S", "B", "A", "A"].count "A" = 2 ∧ ¬(2 ≤ 1) := by
  refine ⟨?_, by decide, by decide⟩
  norm_num +decide [run6, anytimeAStarRepairing, driverLoop, improvePath,
    improvePathAux, extractMin, fval, getQ, mkInitState, processEdge, expandEdges,
    lookupMap, insertMap, calculatePath, pathNodes, minCostOf, boundCandidates,
    currEpsOf, stopCond, jsMin, jsMinR, jsMaxR, rescaleStep, g6out, toStrCN,
    List.getD]

/-- C6 (amended): within a pass, each neighbour-loop iteration appends to
the queue only records that are not in the inconsistent set at that moment
(an inconsistent record's key is closed, and the loop enqueues only
records whose key is not closed, or brand-new records), the pass preserves
this bookkeeping (also as the closed set grows), and it is the driver's
queue migration that re-seeds the inconsistent records and clears the set —
but a node key may be expanded more than once per pass (see the
counterexample). -/
theorem c6_amended :
    (∀ (h : Node → Rat) (toStr : Node → String) (closed : List (String × Nat))
        (cur : Nat) (st : AState Node) (e : Edge Node),
      VisitedWF toStr st → InconsClosed toStr closed st →
      ∃ new, (processEdge h toStr closed cur st e).queue = st.queue ++ new ∧
        ∀ id ∈ new, ∀ kv ∈ st.inconsistentSet, kv.2 ≠ id) ∧
    (∀ (h : Node → Rat) (toStr : Node → String) (closed : List (String × Nat))
        (cur : Nat) (st : AState Node) (e : Edge Node),
      VisitedWF toStr st → InconsClosed toStr closed st →
      VisitedWF toStr (processEdge h toStr closed cur st e) ∧
      InconsClosed toStr closed (processEdge h toStr closed cur st e)) ∧
    (∀ (toStr : Node → String) (closed : List (String × Nat)) (k : String)
        (v : Nat) (st : AState Node),
      InconsClosed toStr closed st → InconsClosed toStr (insertMap closed k v) st) ∧
    (∀ st : AState Node,
      (rescaleStep st).queue = st.queue ++ st.inconsistentSet.map (fun kv => kv.2) ∧
      (rescaleStep st).inconsistentSet = []) := by
  refine ⟨?_, ?_, ?_, fun st => ⟨rfl, rfl⟩⟩
  · intro h toStr closed cur st e hv hi
    rcases processEdge_shape h toStr closed cur st e with
      ⟨heq, _⟩ | ⟨tid, hlook, hcost, hbr⟩ | ⟨hlook, heq⟩
    · refine ⟨[], ?_, fun id hid => absurd hid (List.not_mem_nil _)⟩
      rw [heq, List.append_nil]
    · rcases hbr with ⟨hcl, heq⟩ | ⟨hcl, heq⟩
      · refine ⟨[tid], by rw [heq], ?_⟩
        intro id hid kv hkv
        simp only [List.mem_singleton] at hid
        subst hid
        obtain ⟨-, hkey⟩ := hv _ (lookupMap_mem hlook)
        obtain ⟨-, hclkv, hkeykv⟩ := hi kv hkv
        intro hc
        rw [hc] at hkeykv
        rw [hkey] at hkeykv
        rw [← hkeykv] at hclkv
        exact hclkv hcl
      · refine ⟨[], ?_, fun id hid => absurd hid (List.not_mem_nil _)⟩
        rw [heq, List.append_nil]
    · refine ⟨[st.store.length], by rw [heq], ?_⟩
      intro id hid kv hkv
      simp only [List.mem_singleton] at hid
      subst hid
      exact Nat.ne_of_lt (hi kv hkv).1
  · intro h toStr closed cur st e hv hi
    rcases processEdge_shape h toStr closed cur st e with
      ⟨heq, _⟩ | ⟨tid, hlook, hcost, hbr⟩ | ⟨hlook, heq⟩
    · rw [heq]
      exact ⟨hv, hi⟩
    · obtain ⟨htidlt, hkey⟩ := hv _ (lookupMap_mem hlook)
      set upd : QNode Node :=
        ⟨some cur, (getQ st.store tid).node,
          e.cost + (getQ st.store cur).cost, h e.tgt * st.epsilon⟩ with hupd
      have hlen : (st.store.set tid upd).length = st.store.length := by simp
      have hnode : ∀ i, (getQ (st.store.set tid upd) i).node =
          (getQ st.store i).node := by
        intro i
        by_cases hit : i = tid
        · subst hit
          rw [getQ_set_self upd htidlt]
        · rw [getQ_set_ne upd hit]
      rcases hbr with ⟨hcl, heq⟩ | ⟨hcl, heq⟩
      · rw [heq]
        constructor
        · intro kv hkv
          obtain ⟨h1, h2⟩ := hv kv hkv
          rw [hlen, hnode kv.2]
          exact ⟨h1, h2⟩
        · intro kv hkv
          obtain ⟨h1, h2, h3⟩ := hi kv hkv
          rw [hlen, hnode kv.2]
          exact ⟨h1, h2, h3⟩
      · rw [heq]
        constructor
        · intro kv hkv
          obtain ⟨h1, h2⟩ := hv kv hkv
          rw [hlen, hnode kv.2]
          exact ⟨h1, h2⟩
        · intro kv hkv
          rcases mem_insertMap hkv with hkv | hkv
          · subst hkv
            rw [hlen, hnode tid]
            exact ⟨htidlt, hcl, hkey⟩
          · obtain ⟨h1, h2, h3⟩ := hi kv hkv
            rw [hlen, hnode kv.2]
            exact ⟨h1, h2, h3⟩
    · rw [heq]
      set nw : QNode Node :=
        ⟨some cur, e.tgt, e.cost + (getQ st.store cur).cost,
          h e.tgt * st.epsilon⟩ with hnw
      constructor
      · intro kv hkv
        rcases mem_insertMap hkv with hkv | hkv
        · subst hkv
          constructor
          · simp
          · rw [getQ_append_self]
        · obtain ⟨h1, h2⟩ := hv kv hkv
          constructor
          · simp only [List.length_append, List.length_singleton]
            exact Nat.lt_succ_of_lt h1
          · rw [getQ_append_left h1]
            exact h2
      · intro kv hkv
        obtain ⟨h1, h2, h3⟩ := hi kv hkv
        refine ⟨?_, h2, ?_⟩
        · simp only [List.length_append, List.length_singleton]
          exact Nat.lt_succ_of_lt h1
        · rw [getQ_append_left h1]
          exact h3
  · intro toStr closed k v st hi kv hkv
    obtain ⟨h1, h2, h3⟩ := hi kv hkv
    exact ⟨h1, lookupMap_insertMap_ne_none k v h2, h3⟩

/-!  Claim C7. -/

/-- C7 (counterexample): with `timeout = 0` and the clock frozen at the
call instant, the time budget has elapsed before the first expansion, yet
the first pass expands all three nodes of the chain and returns the full
path — refuting "the budget is checked once per node expansion; no node is
expanded after the budget has elapsed". -/
theorem c7_counterexample :
    run7.map (fun o => o.expanded) = some [["S", "A", "B"]] ∧
    run7.map (fun o => (o.result.cost, o.timedOut)) = some (some 2, true) ∧
    (["S", "A", "B"] : List String) ≠ [] := by
  refine ⟨?_, ?_, by decide⟩ <;>
    norm_num +decide [run7, anytimeAStarRepairing, driverLoop, improvePath,
      improvePathAux, extractMin, fval, getQ, mkInitState, processEdge, expandEdges,
      lookupMap, insertMap, calculatePath, pathNodes, minCostOf, boundCandidates,
      currEpsOf, stopCond, jsMin, jsMinR, jsMaxR, rescaleStep, g7out, toStrCN,
      List.getD]

/-- C7 (amended): the pass loop contains no clock check at all — the
wall-clock budget is consulted only by the driver between passes — so with
an already-elapsed budget the call still runs the first pass to completion
and returns exactly its result (and its expansions), flagged as timed
out. -/
theorem c7_amended (outgoing : Node → List (Edge Node)) (goalB : Node → Bool)
    (h : Node → Rat) (toStr : Node → String) (timeout t0 : Rat)
    (times : Nat → Rat) (passFuel loopFuel : Nat) (start : Node)
    (hfuel : 0 < loopFuel) (ht : ¬ times 0 < t0 + timeout) :
    anytimeAStarRepairing outgoing goalB h toStr timeout t0 times passFuel
      loopFuel start =
      (improvePath outgoing goalB h toStr passFuel (mkInitState start h)).map
        (fun x => ⟨x.1, x.2.1, [], [x.1.cost], [x.2.2], true⟩) := by
  obtain ⟨fuel, hf⟩ : ∃ n, loopFuel = n + 1 :=
    ⟨loopFuel - 1, (Nat.succ_pred_eq_of_pos hfuel).symm⟩
  subst hf
  rw [anytimeAStarRepairing]
  cases himp : improvePath outgoing goalB h toStr passFuel (mkInitState start h) with
  | none => rfl
  | some t =>
      obtain ⟨res, st, tr⟩ := t
      dsimp only
      rw [driverLoop, if_neg ht]
      rfl

theorem c7_amended_witness :
    (0 < 6) ∧ ¬((0 : Rat) < 0 + 0) ∧
    anytimeAStarRepairing g7out (fun n => n == CN.B) (fun _ => 0) toStrCN 0 0
        (fun _ => 0) 12 6 CN.S =
      (improvePath g7out (fun n => n == CN.B) (fun _ => 0) toStrCN 12
          (mkInitState CN.S (fun _ => 0))).map
        (fun x => ⟨x.1, x.2.1, [], [x.1.cost], [x.2.2], true⟩) :=
  ⟨by decide, by norm_num,
    c7_amended g7out (fun n => n == CN.B) (fun _ => 0) toStrCN 0 0 (fun _ => 0)
      12 6 CN.S (by decide) (by norm_num)⟩

/-!  Claim C9. -/

/-- C9 (confirmed): the entry point builds a fresh `aStar` instance whose
fields are all initialized per instance, and reads no state of earlier
searches: its result is a function of its arguments alone, so two
invocations with identical arguments return identical results regardless
of any earlier searches in the process (modelled by the ignored `prior`
instance states). -/
theorem c9_no_cross_call_state (prior prior2 : List (AState Node))
    (outgoing : Node → List (Edge Node)) (goalB : Node → Bool) (h : Node → Rat)
    (toStr : Node → String) (timeout t0 : Rat) (times : Nat → Rat)
    (passFuel loopFuel : Nat) (start : Node) :
    aStarSearchAfter prior outgoing goalB h toStr timeout t0 times passFuel
      loopFuel start =
    aStarSearchAfter prior2 outgoing goalB h toStr timeout t0 times passFuel
      loopFuel start := rfl

/-!  Claim C10. -/

/-- C10 (confirmed): the instance initializes `epsilon` to the constant 4
(the entry point takes no ε parameter); the start record is seeded with
cached heuristic `ε · h(start)`; throughout the first pass every record's
cached heuristic equals `h(node) · ε` with `ε` unchanged (= 4), and the
queue always dequeues a record minimizing `cost + heuristic`, which under
that invariant is `g + 4·h`. -/
theorem c10_initial_epsilon :
    (∀ (start : Node) (h : Node → Rat), (mkInitState start h).epsilon = 4) ∧
    (∀ (start : Node) (h : Node → Rat), HeurInv h (mkInitState start h)) ∧
    (∀ (outgoing : Node → List (Edge Node)) (goalB : Node → Bool)
        (toStr : Node → String) (start : Node) (h : Node → Rat),
      Function.Injective toStr →
      ∀ (fuel : Nat) (st : AState Node) (closed : List (String × Nat))
        (trace : List String) (res : SearchResult Node) (st2 : AState Node)
        (tr2 : List String),
        Inv outgoing goalB toStr start st → HeurInv h st →
        improvePathAux outgoing goalB h toStr fuel st closed trace =
          some (res, st2, tr2) →
        HeurInv h st2 ∧ st2.epsilon = st.epsilon) ∧
    (∀ (store : List (QNode Node)) (q : List Nat) (cur : Nat) (rest : List Nat),
      extractMin store q = some (cur, rest) →
      ∀ j ∈ q, fval store cur ≤ fval store j) ∧
    (∀ (st : AState Node) (h : Node → Rat), HeurInv h st →
      ∀ i, i < st.store.length →
        fval st.store i =
          (getQ st.store i).cost + h ((getQ st.store i).node) * st.epsilon) := by
  refine ⟨fun _ _ => rfl, ?_, ?_, ?_, ?_⟩
  · intro start h i hi
    have h0 : i = 0 := by
      simpa [mkInitState, Nat.lt_one_iff] using hi
    subst h0
    show (getQ (mkInitState start h).store 0).heuristic = _
    simp [mkInitState, getQ, List.getD]
    ring
  · intro outgoing goalB toStr start h hinj fuel st closed trace res st2 tr2 inv hh hrun
    exact improvePathAux_heur hinj h fuel st closed trace inv hh hrun
  · intro store q cur rest hem j hj
    exact extractMin_min hem j hj
  · intro st h hh i hi
    unfold fval
    rw [hh i hi]

end Shrdlite
